import Mathlib

/-!
A shallow embedding of the article-extraction core of `wanish` (file
`wanish/cleaner.py`) together with theorems checking the natural-language
specification of that core against the code.

The mutable `lxml` element tree is modelled as a pure inductive tree
(`Elem`) whose nodes carry a numeric identity (`id`); `lxml` object
identity corresponds to `id` equality, and in-place mutation is modelled by
functions returning the rewritten tree.  Python strings are modelled as
Lean strings, with all character-level processing performed on `List Char`
so that every definition evaluates by kernel reduction.  Python floats are
modelled as rationals: every arithmetic operation performed by the scoring
code (addition, multiplication, division by constants, `min`, comparisons)
is exact on the values the claims exercise, so no rounding behaviour is
lost.  Regular expressions in the source are alternations of literal
fragments; `re.search` of such a pattern is modelled as a substring test
against any alternative and `re.match` as a prefix test, case-insensitive
exactly where the source compiles the pattern with `re.I`.
-/

set_option maxRecDepth 40000

namespace Wanish

/-! ## Character and string utilities -/

/-- Python's `\s` character class (ASCII range), also used by `str.strip()`. -/
def isPyWs (c : Char) : Bool :=
  c = ' ' || c = '\t' || c = '\n' || c = '\r' || c = '\x0b' || c = '\x0c'

/-- Space or tab, the `[ \t]` class of the second substitution in `clean`. -/
def isSpTab (c : Char) : Bool := c = ' ' || c = '\t'

/-- Lower-case a list of characters (model of `re.I` matching and `str.lower()`). -/
def lowerL (cs : List Char) : List Char := cs.map Char.toLower

/-- Does `p` occur as a leading segment of `s`? -/
def startsL : List Char → List Char → Bool
  | [], _ => true
  | _ :: _, [] => false
  | p :: ps, c :: cs => p = c && startsL ps cs

/-- Does `pat` occur as a contiguous substring of `s`? -/
def containsL (pat : List Char) : List Char → Bool
  | [] => startsL pat []
  | s@(_ :: rest) => startsL pat s || containsL pat rest

/-- Model of `re.search` for a pattern that is an alternation of literal
fragments compiled with `re.I`: some alternative occurs somewhere in the
lower-cased text. -/
def re_search (pats : List String) (s : String) : Bool :=
  pats.any (fun p => containsL p.data (lowerL s.data))

/-- Model of `re.match` for a pattern that is an alternation of literal
fragments compiled with `re.I`: some alternative is a leading segment of the
lower-cased text. -/
def re_match (pats : List String) (s : String) : Bool :=
  pats.any (fun p => startsL p.data (lowerL s.data))

/-- First substitution of `clean`: `re.sub('\s*\n\s*', '\n', text)`.  Every
maximal whitespace run containing a newline collapses to a single newline;
runs without a newline are untouched.  Driven by a fuel argument (one unit
per consumed run or character) so that the definition is structural. -/
def collapseNLGo : Nat → List Char → List Char
  | 0, _ => []
  | _ + 1, [] => []
  | fuel + 1, c :: cs =>
    if isPyWs c then
      let run := c :: cs.takeWhile isPyWs
      let rest := cs.dropWhile isPyWs
      (if run.contains '\n' then ['\n'] else run) ++ collapseNLGo fuel rest
    else c :: collapseNLGo fuel cs

def collapseNL (cs : List Char) : List Char := collapseNLGo cs.length cs

/-- Second substitution of `clean`: `re.sub('[ \t]{2,}', ' ', text)`.  Every
maximal run of two or more spaces/tabs collapses to one space. -/
def collapseSpTabGo : Nat → List Char → List Char
  | 0, _ => []
  | _ + 1, [] => []
  | fuel + 1, c :: cs =>
    if isSpTab c then
      let run := c :: cs.takeWhile isSpTab
      let rest := cs.dropWhile isSpTab
      (if run.length ≥ 2 then [' '] else run) ++ collapseSpTabGo fuel rest
    else c :: collapseSpTabGo fuel cs

def collapseSpTab (cs : List Char) : List Char := collapseSpTabGo cs.length cs

/-- Python's `str.strip()`: drop whitespace from both ends. -/
def pyStrip (cs : List Char) : List Char :=
  ((cs.dropWhile isPyWs).reverse.dropWhile isPyWs).reverse

/-- Model of `cleaner.clean`: collapse whitespace runs around newlines, then
runs of spaces/tabs, then strip. -/
def clean (s : String) : String :=
  String.mk (pyStrip (collapseSpTab (collapseNL s.data)))

/-- Python's `s.split(',')` (model on character lists): the list of
comma-separated segments; its length is one more than the comma count. -/
def splitOnComma : List Char → List (List Char)
  | [] => [[]]
  | c :: cs =>
    let r := splitOnComma cs
    if c = ',' then [] :: r
    else
      match r with
      | [] => [[c]]
      | h :: t => (c :: h) :: t

/-- Python's `s.strip()` truthiness test used as `if s and s.strip():`. -/
def stripNonempty (s : String) : Bool := ¬ (pyStrip s.data).isEmpty

/-- Model of `re.search('\.( |$)', s)`: a period followed by a space or the
end of the string. -/
def hasSentenceEnd : List Char → Bool
  | [] => false
  | ['.'] => true
  | '.' :: ' ' :: _ => true
  | _ :: cs => hasSentenceEnd cs

/-! ## The regular-expression tables (`REGEXES` in the source) -/

def unlikelyCandidatesAlt : List String :=
  ["combx", "comment", "community", "disqus", "extra", "foot", "header", "menu",
   "remark", "rss", "shoutbox", "sidebar", "sponsor", "ad-break", "agegate",
   "pagination", "pager", "popup", "tweet", "twitter", "adblock"]

def okMaybeItsACandidateAlt : List String :=
  ["and", "article", "body", "column", "main", "shadow"]

def positiveAlt : List String :=
  ["article", "body", "content", "entry", "hentry", "main", "page",
   "pagination", "post", "text", "blog", "story"]

def negativeAlt : List String :=
  ["combx", "comment", "com-", "contact", "foot", "footer", "footnote",
   "masthead", "media", "meta", "outbrain", "promo", "related", "scroll",
   "shoutbox", "sidebar", "sponsor", "shopping", "tags", "tool", "widget",
   "adblock"]

/-- Alternatives of `divToPElementsRe`: `<(a|blockquote|dl|div|img|ol|p|pre|table|ul)`,
searched with `re.I`. -/
def divToPElementsAlt : List String :=
  ["<a", "<blockquote", "<dl", "<div", "<img", "<ol", "<p", "<pre", "<table", "<ul"]

/-! ## The element tree

An `lxml` element: tag, ordered attributes, leading text, ordered children
(each carrying its trailing `tail` text), plus a numeric identity standing
for Python object identity. -/

inductive Elem where
  | mk (id : Nat) (tag : String) (attrs : List (String × String)) (text : String)
       (children : List Elem) (tail : String)

def Elem.id : Elem → Nat
  | .mk i _ _ _ _ _ => i

def Elem.tag : Elem → String
  | .mk _ t _ _ _ _ => t

def Elem.attrs : Elem → List (String × String)
  | .mk _ _ a _ _ _ => a

def Elem.text : Elem → String
  | .mk _ _ _ t _ _ => t

def Elem.children : Elem → List Elem
  | .mk _ _ _ _ cs _ => cs

def Elem.tail : Elem → String
  | .mk _ _ _ _ _ tl => tl

/-- Attribute lookup, the model of `elem.get(key, default=None)`. -/
def Elem.get (e : Elem) (k : String) : Option String :=
  (e.attrs.find? (fun kv => kv.1 = k)).map (fun kv => kv.2)

/-- Attribute update, the model of `elem.set(key, value)`. -/
def Elem.set (e : Elem) (k v : String) : Elem :=
  match e with
  | .mk i t a tx cs tl =>
    if (a.find? (fun kv => kv.1 = k)).isSome then
      .mk i t (a.map (fun kv => if kv.1 = k then (k, v) else kv)) tx cs tl
    else
      .mk i t (a ++ [(k, v)]) tx cs tl

def Elem.withTag (e : Elem) (t : String) : Elem :=
  match e with
  | .mk i _ a tx cs tl => .mk i t a tx cs tl

def Elem.withText (e : Elem) (tx : String) : Elem :=
  match e with
  | .mk i t a _ cs tl => .mk i t a tx cs tl

def Elem.withChildren (e : Elem) (cs : List Elem) : Elem :=
  match e with
  | .mk i t a tx _ tl => .mk i t a tx cs tl

def Elem.withTail (e : Elem) (tl : String) : Elem :=
  match e with
  | .mk i t a tx cs _ => .mk i t a tx cs tl

/-! ### Text content and serialization -/

mutual

/-- Characters of `elem.text_content()`: the element's text followed by each
child's text content and tail, recursively. -/
def textContentL : Elem → List Char
  | .mk _ _ _ tx cs _ => tx.data ++ textContentChildren cs

def textContentChildren : List Elem → List Char
  | [] => []
  | c :: cs => textContentL c ++ c.tail.data ++ textContentChildren cs

end

def text_content (e : Elem) : String := String.mk (textContentL e)

/-- XML text escaping used by `etree.tostring` for text and tails. -/
def escText : List Char → List Char
  | [] => []
  | c :: cs =>
    (if c = '&' then "&amp;".data
     else if c = '<' then "&lt;".data
     else if c = '>' then "&gt;".data
     else [c]) ++ escText cs

/-- XML attribute-value escaping (double-quoted attributes). -/
def escAttr : List Char → List Char
  | [] => []
  | c :: cs =>
    (if c = '&' then "&amp;".data
     else if c = '<' then "&lt;".data
     else if c = '>' then "&gt;".data
     else if c = '"' then "&quot;".data
     else [c]) ++ escAttr cs

def serializeAttrs : List (String × String) → List Char
  | [] => []
  | (k, v) :: rest => ' ' :: (k.data ++ '=' :: '"' :: escAttr v.data ++ '"' :: serializeAttrs rest)

mutual

/-- Characters of `etree.tostring(elem)` (XML serialization, as imported from
`lxml.etree` in the source): open tag with attributes, text, children, close
tag — self-closing when there is neither text nor a child — followed by the
element's tail. -/
def serializeL : Elem → List Char
  | .mk _ tag attrs text cs tail =>
    '<' :: (tag.data ++ serializeAttrs attrs ++
      (if text = "" && cs.isEmpty then "/>".data
       else '>' :: (escText text.data ++ serializeChildren cs ++
         '<' :: '/' :: (tag.data ++ ['>'])))) ++ escText tail.data

def serializeChildren : List Elem → List Char
  | [] => []
  | c :: cs => serializeL c ++ serializeChildren cs

end

def serialize (e : Elem) : String := String.mk (serializeL e)

/-! ### Traversal: descendants in document order, with paths -/

mutual

/-- All strict descendants of an element paired with their child-index paths,
in document (preorder) order. -/
def descendantsWithPaths : Elem → List (List Nat × Elem)
  | .mk _ _ _ _ cs _ => dwpChildren 0 cs

def dwpChildren (i : Nat) : List Elem → List (List Nat × Elem)
  | [] => []
  | c :: cs =>
    ([i], c) :: ((descendantsWithPaths c).map (fun pe => (i :: pe.1, pe.2)) ++ dwpChildren (i + 1) cs)

end

/-- All strict descendants in document order. -/
def descendants (e : Elem) : List Elem := (descendantsWithPaths e).map (fun pe => pe.2)

/-- Model of `node.findall('.//tag')`: strict descendants with the given tag,
in document order. -/
def findAllPairs (t : String) (e : Elem) : List (List Nat × Elem) :=
  (descendantsWithPaths e).filter (fun pe => pe.2.tag = t)

def findAllTag (t : String) (e : Elem) : List Elem :=
  (findAllPairs t e).map (fun pe => pe.2)

def findPathsTag (t : String) (e : Elem) : List (List Nat) :=
  (findAllPairs t e).map (fun pe => pe.1)

/-- Model of the source's `tags(node, *tag_names)` generator: for each tag
name in order, all matching descendants in document order. -/
def tags (node : Elem) (names : List String) : List Elem :=
  (names.map (fun t => findAllTag t node)).flatten

/-- Model of the source's `reverse_tags(node, *tag_names)` generator: for each
tag name in order, the matching descendants in reverse document order. -/
def reverse_tags (node : Elem) (names : List String) : List Elem :=
  (names.map (fun t => (findAllTag t node).reverse)).flatten

/-- Model of `elem.find('tag')` restricted to the source's uses
(`self._html.find('body')`): the first descendant with the tag, if any.
(`find` with a plain tag searches direct children in `lxml`; the source only
calls it on roots whose matching element, when present, is a direct child,
so the first-descendant reading and the direct-child reading agree on every
tree the orchestrator can pass — we model direct children faithfully.) -/
def Elem.find (e : Elem) (t : String) : Option Elem :=
  e.children.find? (fun c => c.tag = t)

/-! ### Pure-tree stand-ins for in-place mutation -/

/-- Replace the element at `path` by `f` of it; identity when the path
dangles. -/
def updateAt (f : Elem → Elem) : List Nat → Elem → Elem
  | [], e => f e
  | i :: p, e =>
    match e.children.get? i with
    | none => e
    | some c => e.withChildren (e.children.set i (updateAt f p c))

/-- Look up the element at a child-index path. -/
def subtreeAt : List Nat → Elem → Option Elem
  | [], e => some e
  | i :: p, e =>
    match e.children.get? i with
    | none => none
    | some c => subtreeAt p c

/-- Remove child `i` of `e`, joining the removed child's tail to the previous
sibling's tail (or to the parent's text when there is no previous sibling),
as `lxml.html`'s `drop_tree` does. -/
def dropChildIdx (e : Elem) (i : Nat) : Elem :=
  match e.children.get? i with
  | none => e
  | some c =>
    let rest := e.children.eraseIdx i
    if i = 0 then
      (e.withText (e.text ++ c.tail)).withChildren rest
    else
      match rest.get? (i - 1) with
      | none => e.withChildren rest
      | some prev => e.withChildren (rest.set (i - 1) (prev.withTail (prev.tail ++ c.tail)))

/-- Model of `drop_tree` at a path: remove the subtree rooted there.  The
working root itself is never dropped (the source never reaches that case on
the trees it builds: dropping it would detach it from context outside the
working scope). -/
def dropAt (root : Elem) (p : List Nat) : Elem :=
  match p.getLast? with
  | none => root
  | some i => updateAt (fun parent => dropChildIdx parent i) p.dropLast root

/-- Ancestor chain of the element at `path`, nearest ancestor first; `extra`
is the chain continuing above `root` (used when the working root sits inside
a larger document). -/
def ancestorsAtGo : Elem → List Nat → List Elem → List Elem
  | _, [], acc => acc
  | e, i :: p, acc =>
    match e.children.get? i with
    | none => acc
    | some c => ancestorsAtGo c p (e :: acc)

def ancestorsAt (root : Elem) (p : List Nat) (extra : List Elem) : List Elem :=
  ancestorsAtGo root p [] ++ extra

mutual

/-- Largest node identity occurring in a tree (used to mint fresh identities
for elements the code creates). -/
def maxIdE : Elem → Nat
  | .mk i _ _ _ cs _ => max i (maxIdL cs)

def maxIdL : List Elem → Nat
  | [] => 0
  | c :: cs => max (maxIdE c) (maxIdL cs)

end

/-! ### Text length and link density -/

/-- Source `text_length`: length of the cleaned text content. -/
def text_length (e : Elem) : Nat := (clean (text_content e)).length

/-- Source `get_link_density`: total cleaned text length inside descendant
anchors over the element's cleaned text length (at least 1). -/
def get_link_density (e : Elem) : ℚ :=
  let link_length := ((findAllTag "a" e).map text_length).sum
  (link_length : ℚ) / (max (text_length e) 1 : Nat)

/-! ## Preprocessor

In-place subtree removal (`drop_tree` over a snapshot of matching elements in
document order) is modelled by a single right-to-left pass: a removed child's
tail is joined to the nearest preceding surviving sibling's tail, or to the
parent's text when every preceding sibling is removed too — exactly the net
effect of the source's sequential document-order drops. -/

mutual

/-- Remove every strict descendant on which `p` holds (checked top-down, so
descendants of a removed subtree are gone with it), merging tails as
`drop_tree` does. -/
def dropWhereE (p : Elem → Bool) : Elem → Elem
  | .mk i t a tx cs tl =>
    let pr := dropWhereChildren p cs
    .mk i t a (tx ++ pr.2) pr.1 tl

/-- Process a child list; returns surviving children plus the pending tail
text of removed leading children (to be joined to the parent's text). -/
def dropWhereChildren (p : Elem → Bool) : List Elem → List Elem × String
  | [] => ([], "")
  | c :: cs =>
    let pr := dropWhereChildren p cs
    if p c then (pr.1, c.tail ++ pr.2)
    else
      let c2 := dropWhereE p c
      ((c2.withTail (c2.tail ++ pr.2)) :: pr.1, "")

end

mutual

/-- Model of `for i in self.tags(self._html, 'body'): i.set('id', 'readabilityBody')`
applied below a node. -/
def markBodyE : Elem → Elem
  | .mk i t a tx cs tl =>
    let e2 : Elem := .mk i t a tx (markBodyL cs) tl
    if t = "body" then e2.set "id" "readabilityBody" else e2

def markBodyL : List Elem → List Elem
  | [] => []
  | c :: cs => markBodyE c :: markBodyL cs

end

/-- Mark every `body` strict descendant of the working root. -/
def markBody (root : Elem) : Elem := root.withChildren (markBodyL root.children)

/-- Source `remove_unlikely_candidates` per-element test (lines 214-221):
the concatenated `class` and `id` string matches the unlikely pattern, does
not match the override pattern, and the tag is neither `html` nor `body`. -/
def unlikelyKill (e : Elem) : Bool :=
  let s := ((e.get "class").getD "") ++ " " ++ ((e.get "id").getD "")
  if s.length < 2 then false
  else
    re_search unlikelyCandidatesAlt s && !(re_search okMaybeItsACandidateAlt s) &&
      !(e.tag = "html" || e.tag = "body")

/-- Source `remove_unlikely_candidates`: drop every matching subtree below
the working root (the root itself stays as the working reference even when
it matches, since `drop_tree` only detaches it from context the pipeline no
longer consults). -/
def remove_unlikely_candidates (root : Elem) : Elem := dropWhereE unlikelyKill root

mutual

/-- First loop of `transform_misused_divs_into_paragraphs` applied to an
element and its subtree, top-down in document order exactly as the source
walks its snapshot: rename a `div` to `p` when `divToPElementsRe` does not
match its live serialization `tostring(elem)`. -/
def renameMisusedDiv : Elem → Elem
  | .mk i t a tx cs tl =>
    let e : Elem := .mk i t a tx cs tl
    let t2 := if t = "div" && !(re_search divToPElementsAlt (serialize e)) then "p" else t
    .mk i t2 a tx (renameMisusedDivL cs) tl

def renameMisusedDivL : List Elem → List Elem
  | [] => []
  | c :: cs => renameMisusedDiv c :: renameMisusedDivL cs

end

/-- First loop of the transform over the working root's strict descendants
(`self.tags(self._html, 'div')`). -/
def transformRename (root : Elem) : Elem :=
  root.withChildren (renameMisusedDivL root.children)

def insertAt (l : List Elem) (i : Nat) (a : Elem) : List Elem :=
  l.take i ++ a :: l.drop i

def modifyIdx (l : List Elem) (i : Nat) (f : Elem → Elem) : List Elem :=
  match l.get? i with
  | some x => l.set i (f x)
  | none => l

/-- Leading-text wrap of the second transform loop: wrap non-blank element
text into a fresh `p` inserted as the first child. -/
def wrapLeadText (n : Nat) (e : Elem) : Elem × Nat :=
  if stripNonempty e.text then
    let p : Elem := .mk n "p" [] e.text [] ""
    (((e.withText "").withChildren (p :: e.children)), n + 1)
  else (e, n)

/-- One step of the reversed `enumerate` loop of the second transform pass,
at child position `pos`: wrap a non-blank child tail into a fresh `p`
inserted right after the child, then `drop_tree` the child when it is a
`br`.  The state carries the parent's text (a first-position drop merges
into it), the current child list and the fresh-identity counter. -/
def wrapTailsStep (st : String × List Elem × Nat) (pos : Nat) : String × List Elem × Nat :=
  let tx := st.1
  let cs := st.2.1
  let n := st.2.2
  match cs.get? pos with
  | none => (tx, cs, n)
  | some child =>
    let wrapped :=
      if stripNonempty child.tail then
        let p : Elem := .mk n "p" [] child.tail [] ""
        let child2 := child.withTail ""
        (child2, insertAt (cs.set pos child2) (pos + 1) p, n + 1)
      else (child, cs, n)
    let child2 := wrapped.1
    let cs2 := wrapped.2.1
    let n2 := wrapped.2.2
    if child2.tag = "br" then
      let rest := cs2.eraseIdx pos
      if pos = 0 then (tx ++ child2.tail, rest, n2)
      else (tx, modifyIdx rest (pos - 1) (fun prev => prev.withTail (prev.tail ++ child2.tail)), n2)
    else (tx, cs2, n2)

/-- Body of the second transform loop for one `div` element. -/
def wrapDivLocal (n : Nat) (e : Elem) : Elem × Nat :=
  let pr := wrapLeadText n e
  let e2 := pr.1
  let positions := (List.range e2.children.length).reverse
  let res := positions.foldl wrapTailsStep (e2.text, e2.children, pr.2)
  (((e2.withText res.1).withChildren res.2.1), res.2.2)

mutual

/-- Second transform loop over a subtree.  The source processes the `div`
snapshot in document order against the live tree; since the per-`div` body
only touches that `div`'s text, its children's tails and its `br` children,
the operations on distinct `div`s act on disjoint data, so the bottom-up
order used here produces the same tree (only the fresh identities are
minted in a different order). -/
def wrapDivsE : Nat → Elem → Elem × Nat
  | n, .mk i t a tx cs tl =>
    let pr := wrapDivsL n cs
    let e2 : Elem := .mk i t a tx pr.1 tl
    if t = "div" then wrapDivLocal pr.2 e2 else (e2, pr.2)

def wrapDivsL : Nat → List Elem → List Elem × Nat
  | n, [] => ([], n)
  | n, c :: cs =>
    let pr := wrapDivsE n c
    let pr2 := wrapDivsL pr.2 cs
    (pr.1 :: pr2.1, pr2.2)

end

/-- Second transform loop over the working root's strict descendants. -/
def transformWrap (n : Nat) (root : Elem) : Elem × Nat :=
  let pr := wrapDivsL n root.children
  (root.withChildren pr.1, pr.2)

/-- Source `transform_misused_divs_into_paragraphs`: the rename pass followed
by the text-wrapping pass.  `n` is the next fresh node identity. -/
def transform_misused_divs_into_paragraphs (n : Nat) (root : Elem) : Elem × Nat :=
  transformWrap n (transformRename root)

/-! ## Scorer -/

/-- `ArticleExtractor.TEXT_LENGTH_THRESHOLD`. -/
def TEXT_LENGTH_THRESHOLD : Nat := 25

/-- `ArticleExtractor.RETRY_LENGTH`. -/
def RETRY_LENGTH : Nat := 250

/-- Per-call configuration: the custom keyword lists handed to the
constructor and compiled by `compile_pattern`. -/
structure ExtractorConfig where
  positive_keywords : List String
  negative_keywords : List String

def defaultConfig : ExtractorConfig := ⟨[], []⟩

/-- Model of a `compile_pattern` result applied with `.match`: some keyword
(lower-cased at compile time, matched case-sensitively) is a leading segment
of the text. -/
def keywords_match (kws : List String) (text : String) : Bool :=
  kws.any (fun k => startsL (lowerL k.data) text.data)

/-- Source `check_regexes`: start-anchored match against the negative and
positive tables, −25 and +25 respectively. -/
def check_regexes (text : String) : ℚ :=
  (if re_match negativeAlt text then -25 else 0) + (if re_match positiveAlt text then 25 else 0)

/-- Source `check_keywords`: same for the per-call custom keyword lists
(`None` patterns, i.e. empty lists, never match). -/
def check_keywords (cfg : ExtractorConfig) (text : String) : ℚ :=
  (if cfg.positive_keywords ≠ [] && keywords_match cfg.positive_keywords text then 25 else 0) +
    (if cfg.negative_keywords ≠ [] && keywords_match cfg.negative_keywords text then -25 else 0)

/-- Source `class_weight`: regex and keyword weight of the `class` and `id`
attributes (skipped when absent or empty, as Python truthiness does), plus
the keyword weight of the synthetic `"tag-" + tag` string. -/
def class_weight (cfg : ExtractorConfig) (e : Elem) : ℚ :=
  let featWeight := fun feature =>
    match feature with
    | some f => if f = "" then 0 else check_regexes f + check_keywords cfg f
    | none => 0
  featWeight (e.get "class") + featWeight (e.get "id") +
    check_keywords cfg ("tag-" ++ e.tag)

/-- A candidate record: the mutable `{'content_score': ..., 'elem': ...}`
dictionary of the source. -/
structure Candidate where
  content_score : ℚ
  elem : Elem

/-- Source `score_node`. -/
def score_node (cfg : ExtractorConfig) (e : Elem) : Candidate :=
  let name := String.mk (lowerL e.tag.data)
  let bonus : ℚ :=
    if name = "div" then 5
    else if ["pre", "td", "blockquote"].contains name then 3
    else if ["address", "ol", "ul", "dl", "dd", "dt", "li", "form"].contains name then -3
    else if ["h1", "h2", "h3", "h4", "h5", "h6", "th"].contains name then -5
    else 0
  ⟨class_weight cfg e + bonus, e⟩

/-- The candidate mapping is keyed by node identity; the insertion-ordered
list is both the dictionary and the source's `ordered` list (their contents
always coincide: the source appends to `ordered` exactly when it inserts). -/
def findCandidate (cands : List Candidate) (i : Nat) : Option Candidate :=
  cands.find? (fun c => c.elem.id == i)

def addScore (cands : List Candidate) (i : Nat) (d : ℚ) : List Candidate :=
  cands.map (fun c => if c.elem.id == i then ⟨c.content_score + d, c.elem⟩ else c)

/-- The paragraph contribution of `score_paragraphs` (source lines 285-287):
`1 + len(inner_text.split(',')) + min(inner_text_len / 100, 3)`. -/
def contentScoreOf (inner_text : List Char) : ℚ :=
  1 + ((splitOnComma inner_text).length : ℚ) + min ((inner_text.length : ℚ) / 100) 3

/-- The per-paragraph body of `score_paragraphs` (source lines 263-291):
skip a parentless element; skip when the cleaned text is shorter than 25;
lazily create parent and grandparent candidates via `score_node`; then add
the contribution to the parent and half of it to the grandparent.  `anc` is
the element's ancestor chain, nearest first. -/
def scoreParagraphStep (cfg : ExtractorConfig) (cands : List Candidate)
    (elem : Elem) (anc : List Elem) : List Candidate :=
  match anc with
  | [] => cands
  | parent :: rest =>
    let grand := rest.head?
    let inner_text := (clean (text_content elem)).data
    if inner_text.length < TEXT_LENGTH_THRESHOLD then cands
    else
      let cands1 :=
        if (findCandidate cands parent.id).isSome then cands
        else cands ++ [score_node cfg parent]
      let cands2 :=
        match grand with
        | some gp =>
          if (findCandidate cands1 gp.id).isSome then cands1
          else cands1 ++ [score_node cfg gp]
        | none => cands1
      let cs := contentScoreOf inner_text
      let cands3 := addScore cands2 parent.id cs
      match grand with
      | some gp => addScore cands3 gp.id (cs / 2)
      | none => cands3

/-- The paragraph elements of the working root in the order the source's
`tags(self._html, "p", "pre", "td")` yields them, each with its ancestor
chain (continuing into `ctx` above the working root, since `getparent()`
follows real parents beyond the narrowed scope). -/
def tagsWithAncestors (root : Elem) (ctx : List Elem) (names : List String) :
    List (Elem × List Elem) :=
  (names.map (fun t =>
    (findAllPairs t root).map (fun pe => (pe.2, ancestorsAt root pe.1 ctx)))).flatten

/-- The final scaling applied to each candidate (source lines 295-302):
multiply by `1 - link_density`, then by `1 + len(elem.text_content())/500` —
note the second factor uses the raw, uncleaned text-content length. -/
def scaledScore (score : ℚ) (ld : ℚ) (raw_len : Nat) : ℚ :=
  score * (1 - ld) * (1 + (raw_len : ℚ) / 500)

def scaleCandidate (c : Candidate) : Candidate :=
  ⟨scaledScore c.content_score (get_link_density c.elem) (textContentL c.elem).length, c.elem⟩

/-- The accumulation phase of `score_paragraphs`: fold the per-paragraph
body over the paragraph elements, yielding the candidates in first-seen
order with their pre-scaling scores. -/
def score_paragraphs_raw (cfg : ExtractorConfig) (ctx : List Elem) (root : Elem) :
    List Candidate :=
  (tagsWithAncestors root ctx ["p", "pre", "td"]).foldl
    (fun cs pe => scoreParagraphStep cfg cs pe.1 pe.2) []

/-- Source `score_paragraphs`: the accumulation phase followed by the
scaling loop, which rewrites each candidate's score exactly once, in
first-seen order. -/
def score_paragraphs (cfg : ExtractorConfig) (ctx : List Elem) (root : Elem) :
    List Candidate :=
  (score_paragraphs_raw cfg ctx root).map scaleCandidate

/-! ## Selector -/

/-- Stable insertion of a candidate into a descending-by-score list: the
inserted element goes before the first element whose score is not larger,
so earlier input elements precede later ones on ties. -/
def insertCandidate (x : Candidate) : List Candidate → List Candidate
  | [] => [x]
  | y :: ys =>
    if y.content_score ≤ x.content_score then x :: y :: ys
    else y :: insertCandidate x ys

/-- Stable sort by descending `content_score`.  Python's `sorted(...,
reverse=True)` is specified to be a stable sort, and the stable descending
sort of a list is a unique function, so any stable algorithm is a faithful
model. -/
def sortCandidates : List Candidate → List Candidate
  | [] => []
  | x :: xs => insertCandidate x (sortCandidates xs)

/-- Source `select_best_candidate`: head of the stable descending sort of
the candidate values in insertion order; `none` when there are none. -/
def select_best_candidate (cands : List Candidate) : Option Candidate :=
  (sortCandidates cands).head?

/-! ## Assembler -/

/-- Path of the element with identity `i` (the model of holding a reference
to a node of the mutable tree). -/
def pathOfId (root : Elem) (i : Nat) : Option (List Nat) :=
  if root.id == i then some []
  else ((descendantsWithPaths root).find? (fun pe => pe.2.id == i)).map (fun pe => pe.1)

/-- Source `initial_output`: `fragment_fromstring('<div/>')` for a partial
result, else `document_fromstring('<div/>')`, which parses to a minimal
`html > body > div` skeleton.  `n` is the next fresh node identity. -/
def initial_output (n : Nat) (htmlPartial : Bool) : Elem :=
  if htmlPartial then .mk n "div" [] "" [] ""
  else .mk n "html" [] "" [.mk (n + 1) "body" [] "" [.mk (n + 2) "div" [] "" [] ""] ""] ""

/-- Source `is_appendable`: a sibling joins the output when it is a scored
candidate at or above the threshold, or is a `p` whose direct text is long
with low link density, or short with zero link density and a sentence end.
The decimal literals `0.25` of the source are exact rationals. -/
def is_appendable (sibling : Elem) (cands : List Candidate) (threshold : ℚ) : Bool :=
  let viaScore :=
    match findCandidate cands sibling.id with
    | some c => decide (threshold ≤ c.content_score)
    | none => false
  if sibling.tag = "p" then
    let ld := get_link_density sibling
    let node_content := sibling.text
    let node_length := node_content.length
    viaScore || (decide (node_length > 80) && decide (ld < 1/4)) ||
      (decide (node_length ≤ 80) && decide (ld = 0) && hasSentenceEnd node_content.data)
  else viaScore

/-- Source `get_article`: build the output skeleton, then move (not copy)
the best element and each appendable sibling, in document order, into the
output container (the root itself when partial, else the inner `div`).
Returns the output together with the document after the moves. -/
def get_article (doc : Elem) (cands : List Candidate) (best : Candidate)
    (htmlPartial : Bool) (n : Nat) : Elem × Elem :=
  let threshold : ℚ := max 10 (best.content_score * (2/10))
  let output := initial_output n htmlPartial
  match pathOfId doc best.elem.id with
  | none => (output, doc)
  | some p =>
    if p.isEmpty then (output, doc)
    else
      let parentPath := p.dropLast
      match subtreeAt parentPath doc with
      | none => (output, doc)
      | some parent =>
        let takeSib := fun (sib : Elem) =>
          sib.id == best.elem.id || is_appendable sib cands threshold
        let appended := parent.children.filter takeSib
        let docAfter :=
          updateAt (fun par => par.withChildren (par.children.filter (fun s => !takeSib s)))
            parentPath doc
        if htmlPartial then (output.withChildren appended, docAfter)
        else (updateAt (fun d => d.withChildren appended) [0, 0] output, docAfter)

/-! ## Sanitizer -/

/-- Heading removal (sanitize step 1): drop `h1`..`h6` with negative class
weight or link density above `0.33` (the source's decimal literal, an exact
rational here). -/
def dropHeaders (cfg : ExtractorConfig) (node : Elem) : Elem :=
  ["h1", "h2", "h3", "h4", "h5", "h6"].foldl
    (fun nd t =>
      dropWhereE
        (fun e => e.tag = t &&
          (decide (class_weight cfg e < 0) || decide (get_link_density e > 33/100)))
        nd)
    node

/-- Sanitize step 2: drop every `form`, `iframe`, `textarea` subtree. -/
def dropForms (node : Elem) : Elem :=
  ["form", "iframe", "textarea"].foldl (fun nd t => dropWhereE (fun e => e.tag = t) nd) node

/-- Source `counts_conditions`: `(counts['p'] and counts['img'] > counts['p'])
or (counts['input'] > counts['p'] / 3)` with Python true division. -/
def counts_conditions (countP countImg countInput : ℤ) : Bool :=
  (countP ≠ 0 && countImg > countP) || decide ((countInput : ℚ) > (countP : ℚ) / 3)

/-- Source `density_conditions` (decimal literals as exact rationals). -/
def density_conditions (weight : ℚ) (link_density : ℚ) : Bool :=
  (decide (weight < 25) && decide (link_density > 2/10)) ||
    (decide (weight ≥ 25) && decide (link_density > 5/10))

/-- Source `get_siblings_content_lengths` given the sibling sequence in the
iteration order of `itersiblings` (document order for following siblings,
nearest-first for preceding ones): content lengths of the first `how_many`
siblings with nonzero cleaned text length. -/
def get_siblings_content_lengths (sibs : List Elem) (how_many : Nat) : List Nat :=
  ((sibs.map text_length).filter (fun l => l ≠ 0)).take how_many

/-- Source `check_if_allowed`: when the nearest non-empty following and
preceding siblings together exceed 1000 characters, cancel the removal and
mark every `table`/`ul`/`div` descendant as allowed.  Returns the final
removal decision and the identities to add to the allowed set. -/
def check_if_allowed (element : Elem) (followingSibs precedingSibs : List Elem)
    (to_remove : Bool) : Bool × List Nat :=
  let siblings :=
    get_siblings_content_lengths followingSibs 1 ++
      get_siblings_content_lengths precedingSibs 1
  if siblings ≠ [] && siblings.sum > 1000 then
    (false, (tags element ["table", "ul", "div"]).map Elem.id)
  else (to_remove, [])

/-- Source `remove_unnecessary_element`: descendant-tag statistics (`li`
biased by −100, hidden inputs discounted; the `a` count is computed by the
source but never read), the structural removal conditions, then the
sibling-length override.  Returns the removal decision and the allowed-set
additions; the caller performs the `drop_tree`. -/
def remove_unnecessary_element (element : Elem)
    (weight : ℚ) (followingSibs precedingSibs : List Elem) : Bool × List Nat :=
  let countP : ℤ := (findAllTag "p" element).length
  let countImg : ℤ := (findAllTag "img" element).length
  let countLi : ℤ := ((findAllTag "li" element).length : ℤ) - 100
  let countEmbed : ℤ := (findAllTag "embed" element).length
  let hidden := ((findAllTag "input" element).filter
    (fun i => i.get "type" == some "hidden")).length
  let countInput : ℤ := ((findAllTag "input" element).length : ℤ) - hidden
  let content_length := text_length element
  let link_density := get_link_density element
  let to_remove :=
    counts_conditions countP countImg countInput ||
    density_conditions weight link_density ||
    (countLi > countP && !(element.tag = "ul" || element.tag = "ol")) ||
    (decide (content_length < TEXT_LENGTH_THRESHOLD) && (countImg == 0 || countImg > 2)) ||
    ((countEmbed == 1 && decide (content_length < 75)) || countEmbed > 1)
  check_if_allowed element followingSibs precedingSibs to_remove

/-- The `content_score` the conditional pass reads for an element: its
candidate record's score when scored, else 0 (sanitize lines 488-491). -/
def scoreOr0 (cands : List Candidate) (i : Nat) : ℚ :=
  match findCandidate cands i with
  | some c => c.content_score
  | none => 0

/-- State of the conditional cleaning pass: the fragment being rewritten,
the allowed set (node identities) and the trace of elements processed so
far, in processing order. -/
structure CondState where
  tree : Elem
  allowed : List Nat
  trace : List Nat

/-- One iteration of sanitize step 3 at a given path: skip allowed
elements; otherwise drop on negative `weight + score`, and run
`remove_unnecessary_element` when the raw text content has fewer than ten
commas. -/
def condCleanStep (cfg : ExtractorConfig) (cands : List Candidate)
    (st : CondState) (path : List Nat) : CondState :=
  match subtreeAt path st.tree with
  | none => st
  | some el =>
    if st.allowed.contains el.id then st
    else
      let st1 : CondState := ⟨st.tree, st.allowed, st.trace ++ [el.id]⟩
      let weight := class_weight cfg el
      let content_score := scoreOr0 cands el.id
      if weight + content_score < 0 then
        ⟨dropAt st1.tree path, st1.allowed, st1.trace⟩
      else if (textContentL el).count ',' < 10 then
        let parentPath := path.dropLast
        let idx := (path.getLast?).getD 0
        let siblings :=
          match subtreeAt parentPath st1.tree with
          | some par => par.children
          | none => []
        let followingSibs := siblings.drop (idx + 1)
        let precedingSibs := (siblings.take idx).reverse
        let pr := remove_unnecessary_element el weight followingSibs precedingSibs
        let st2 : CondState := ⟨st1.tree, st1.allowed ++ pr.2, st1.trace⟩
        if pr.1 then ⟨dropAt st2.tree path, st2.allowed, st2.trace⟩ else st2
      else st1

/-- One tag phase of sanitize step 3: the `reverse_tags` generator computes
the matching elements of the current tree when the phase is reached, and
walks them in reverse document order. -/
def condCleanPhase (cfg : ExtractorConfig) (cands : List Candidate)
    (t : String) (st : CondState) : CondState :=
  ((findPathsTag t st.tree).reverse).foldl (condCleanStep cfg cands) st

/-- Sanitize step 3: conditionally clean `table`, then `ul`, then `div`
elements. -/
def conditionalClean (cfg : ExtractorConfig) (cands : List Candidate)
    (node : Elem) : CondState :=
  ["table", "ul", "div"].foldl (fun st t => condCleanPhase cfg cands t st) ⟨node, [], []⟩

/-! ### clean_attributes

The `html_strip` pattern is
`<([^>]+) (\w+) *= *(?:[^ "'>]+|'[^']+'|"[^"]+")([^>]*)>`; the loop rewrites
every match to `<\1\2>` until none remains. -/

def isWordChar (c : Char) : Bool := c.isAlphanum || c = '_'

def singleQuote : Char := Char.ofNat 39

/-- Match the value alternation `[^ "'>]+ | '[^']+' | "[^"]+"` (tried in the
source's order) at the front of `cs`; returns the remainder. -/
def matchAttrValue (cs : List Char) : Option (List Char) :=
  let v1 := cs.takeWhile (fun c => !(c = ' ' || c = '"' || c = singleQuote || c = '>'))
  if v1.length ≥ 1 then some (cs.drop v1.length)
  else
    match cs with
    | q :: rest =>
      if q = singleQuote then
        let inner := rest.takeWhile (fun c => c ≠ singleQuote)
        if inner.length ≥ 1 && (rest.drop inner.length).head? = some singleQuote then
          some (rest.drop (inner.length + 1))
        else none
      else if q = '"' then
        let inner := rest.takeWhile (fun c => c ≠ '"')
        if inner.length ≥ 1 && (rest.drop inner.length).head? = some '"' then
          some (rest.drop (inner.length + 1))
        else none
      else none
    | [] => none

/-- Continue a match after the mandatory space: `(\w+) *= *VALUE([^>]*)>`.
Returns the postfix group and the remainder after `>`. -/
def matchAfterSpace (cs : List Char) : Option (List Char × List Char) :=
  let w := cs.takeWhile isWordChar
  if w.isEmpty then none
  else
    match (cs.drop w.length).dropWhile (fun c => c = ' ') with
    | '=' :: cs3 =>
      match matchAttrValue (cs3.dropWhile (fun c => c = ' ')) with
      | none => none
      | some cs5 =>
        let post := cs5.takeWhile (fun c => c ≠ '>')
        if (cs5.drop post.length).head? = some '>' then
          some (post, cs5.drop (post.length + 1))
        else none
    | _ => none

/-- Try the `html_strip` pattern right after a `<`: the greedy `([^>]+)`
group takes the longest split whose following space admits a match, exactly
the backtracking order of the Python engine.  Returns the two captured
groups and the remainder. -/
def tryMatchAt (cs : List Char) : Option (List Char × List Char × List Char) :=
  let run := cs.takeWhile (fun c => c ≠ '>')
  ((List.range run.length).reverse).findSome? (fun k =>
    if 1 ≤ k && cs.get? k = some ' ' then
      match matchAfterSpace (cs.drop (k + 1)) with
      | some (post, rest) => some (cs.take k, post, rest)
      | none => none
    else none)

/-- One `html_strip.sub` pass: rewrite every non-overlapping match, left to
right, to `<\1\2>`; scanning resumes after each match. -/
def subAllGo : Nat → List Char → List Char
  | 0, s => s
  | _ + 1, [] => []
  | fuel + 1, c :: cs =>
    if c = '<' then
      match tryMatchAt cs with
      | some (g1, post, rest) => '<' :: (g1 ++ post ++ '>' :: subAllGo fuel rest)
      | none => c :: subAllGo fuel cs
    else c :: subAllGo fuel cs

def htmlStripSub (s : List Char) : List Char := subAllGo s.length s

/-- `html_strip.search` as a Boolean. -/
def htmlStripSearch : List Char → Bool
  | [] => false
  | c :: cs => (c = '<' && (tryMatchAt cs).isSome) || htmlStripSearch cs

/-- Source `clean_attributes`: substitute while a match remains.  Every
round removes at least one attribute, so the input length bounds the number
of rounds. -/
def cleanAttributesGo : Nat → List Char → List Char
  | 0, s => s
  | fuel + 1, s => if htmlStripSearch s then cleanAttributesGo fuel (htmlStripSub s) else s

def clean_attributes (html : String) : String :=
  String.mk (cleanAttributesGo html.data.length html.data)

/-- Source `sanitize`: drop weak headers, drop forms, conditionally clean
`table`/`ul`/`div`, then serialize and strip attributes. -/
def sanitize (cfg : ExtractorConfig) (cands : List Candidate) (node : Elem) : String :=
  let node1 := dropHeaders cfg node
  let node2 := dropForms node1
  let st := conditionalClean cfg cands node2
  clean_attributes (serialize st.tree)

/-! ## Orchestrator

Two models of `get_clean_html`.  The first keeps only the loop's control
state and abstracts each iteration's tree work into an oracle (`PassData`:
did `select_best_candidate` find a candidate, and what string did `sanitize`
return); this is the right granularity for the control-flow and
error-propagation claims.  The second composes the concrete tree pipeline
defined above. -/

/-- What one iteration of the retry loop observes of the tree work. -/
structure PassData where
  bestExists : Bool
  cleaned : String

inductive LoopStep where
  | retryStep (ruthless : Bool)
  | doneStep (s : String)

/-- The length-retry condition of lines 101-105:
`ruthless and len(cleaned_article or '') < self.RETRY_LENGTH` — the length
of the sanitized markup string returned by `sanitize`. -/
def length_retry_cond (ruthless : Bool) (cleaned_article : String) : Bool :=
  ruthless && cleaned_article.length < RETRY_LENGTH

/-- One iteration of the `while True` body (lines 84-109): continue with
`ruthless = False` when no candidate was found while ruthless
(`get_possible_article`), or when the sanitized result is short while still
ruthless; otherwise return the sanitized result. -/
def iterOutcome (d : PassData) (ruthless : Bool) : LoopStep :=
  if !d.bestExists && ruthless then .retryStep false
  else if length_retry_cond ruthless d.cleaned then .retryStep false
  else .doneStep d.cleaned

/-- The retry loop against an oracle giving each iteration's pass data,
bounded by fuel; `none` means the fuel ran out before the loop returned. -/
def runLoop (passes : Nat → PassData) : Nat → Bool → Nat → Option String
  | 0, _, _ => none
  | fuel + 1, ruthless, i =>
    match iterOutcome (passes i) ruthless with
    | .doneStep s => some s
    | .retryStep r => runLoop passes fuel r (i + 1)

/-- The retry loop when an iteration's tree work may raise internally. -/
def runLoopE (passes : Nat → Except String PassData) :
    Nat → Bool → Nat → Except String (Option String)
  | 0, _, _ => .ok none
  | fuel + 1, ruthless, i =>
    match passes i with
    | .error e => .error e
    | .ok d =>
      match iterOutcome d ruthless with
      | .doneStep s => .ok (some s)
      | .retryStep r => runLoopE passes fuel r (i + 1)

/-- The source's `Unparseable(ValueError)`, carrying `str(e)`. -/
structure Unparseable where
  msg : String
  deriving DecidableEq

/-- Source `get_clean_html` at the control-flow level: `None` input returns
`None`; otherwise the whole loop body runs inside `try`, and any exception
is re-raised as `Unparseable(str(e))`.  Two iterations of fuel suffice by
the termination theorem below. -/
def get_clean_html (passes : Option (Nat → Except String PassData)) :
    Except Unparseable (Option String) :=
  match passes with
  | none => .ok none
  | some ps =>
    match runLoopE ps 2 true 0 with
    | .ok r => .ok r
    | .error e => .error ⟨e⟩

/-! ### The concrete composed pipeline -/

/-- All elements of the tree (root included) with their paths, in document
order; the universe an absolute `//`-xpath query filters. -/
def allElemsWithPaths (root : Elem) : List (List Nat × Elem) :=
  ([], root) :: descendantsWithPaths root

def xpathPairs (p : Elem → Bool) (root : Elem) : List (List Nat × Elem) :=
  (allElemsWithPaths root).filter (fun pe => p pe.2)

/-- Source `narrow_scope` (lines 142-158): query `//*[@itemprop='articleBody']`,
`//article`, `//body`; for each nonempty result in that order, point the
working root at its first element and force `htmlPartial`.  (The loop does
not break, so the LAST nonempty query wins the root.)  Returns the working
root's path and the updated flag. -/
def narrow_scope (doc : Elem) (htmlPartial : Bool) : List Nat × Bool :=
  let article_body := xpathPairs (fun e => e.get "itemprop" == some "articleBody") doc
  let articles := xpathPairs (fun e => e.tag = "article") doc
  let body := xpathPairs (fun e => e.tag = "body") doc
  [article_body, articles, body].foldl
    (fun st data =>
      match data with
      | [] => st
      | d :: _ => (d.1, true))
    ([], htmlPartial)

/-- Source `find_candidates` (lines 118-140) against the working root at
`rootPath`: drop `script`/`style`, mark `body`, optionally remove unlikely
candidates, transform misused `div`s, then score.  Ancestor context above
the working root is preserved so `getparent()` chains stay faithful.
Returns the mutated document and the candidate list. -/
def find_candidates (cfg : ExtractorConfig) (doc : Elem) (rootPath : List Nat)
    (ruthless : Bool) : Elem × List Candidate :=
  let root := (subtreeAt rootPath doc).getD doc
  let root1 := dropWhereE (fun e => e.tag = "script" || e.tag = "style") root
  let root2 := markBody root1
  let root3 := if ruthless then remove_unlikely_candidates root2 else root2
  let pr := transform_misused_divs_into_paragraphs (maxIdE doc + 1) root3
  let doc2 := updateAt (fun _ => pr.1) rootPath doc
  let ctx := ancestorsAt doc2 rootPath []
  (doc2, score_paragraphs cfg ctx pr.1)

/-- Result of one iteration of the loop in the concrete model. -/
structure PassResult where
  article : Option Elem
  doc : Elem
  cands : List Candidate
  htmlPartial : Bool
  ruthless : Bool
  should_continue : Bool

/-- One iteration of the loop body (lines 85-94) including
`get_possible_article` (lines 160-190): narrow, score, select; on success
assemble the article; otherwise either schedule the lenient retry or fall
back to the `body` element (or the working root itself). -/
def onePass (cfg : ExtractorConfig) (doc : Elem) (htmlPartial : Bool)
    (ruthless : Bool) : PassResult :=
  let nr := narrow_scope doc htmlPartial
  let rootPath := nr.1
  let hp := nr.2
  let fc := find_candidates cfg doc rootPath ruthless
  let doc2 := fc.1
  let cands := fc.2
  match select_best_candidate cands with
  | some best =>
    let ga := get_article doc2 cands best hp (maxIdE doc2 + 1)
    ⟨some ga.1, ga.2, cands, hp, ruthless, false⟩
  | none =>
    if ruthless then ⟨none, doc2, cands, hp, false, true⟩
    else
      let root := (subtreeAt rootPath doc2).getD doc2
      let article :=
        match root.find "body" with
        | some b => b
        | none => root
      ⟨some article, doc2, cands, hp, false, false⟩

/-- The lenient (second) iteration: with `ruthless = False` the pass always
produces an article and the length check cannot retry, so the sanitized
result is returned unconditionally. -/
def runSecondPass (cfg : ExtractorConfig) (doc : Elem) (hp : Bool) :
    Option String × Option Elem :=
  let p2 := onePass cfg doc hp false
  match p2.article with
  | none => (none, none)
  | some art => (some (sanitize cfg p2.cands art), some art)

/-- Source `get_clean_html` over a concrete tree: the loop unrolled to its
two possible iterations (the termination theorem below shows the second
iteration always returns).  Returns the cleaned markup and the article
element it serializes. -/
def extract (cfg : ExtractorConfig) (doc : Elem) (htmlPartial : Bool) :
    Option String × Option Elem :=
  let p1 := onePass cfg doc htmlPartial true
  if p1.should_continue then runSecondPass cfg p1.doc p1.htmlPartial
  else
    match p1.article with
    | none => (none, none)
    | some art =>
      let s := sanitize cfg p1.cands art
      if length_retry_cond p1.ruthless s then runSecondPass cfg p1.doc p1.htmlPartial
      else (some s, some art)

/-! ## Observation helpers and spec-side definitions

The `...Spec` definitions below are not models of the source: each follows
the words of one spec sentence, to be compared against the corresponding
definition translated from the code. -/

/-- The score the candidate record keyed by identity `i` currently holds. -/
def scoreOfId (cands : List Candidate) (i : Nat) : Option ℚ :=
  (findCandidate cands i).map (fun c => c.content_score)

/-- The score an element's candidate record holds, or the `score_node`
value it would be created with. -/
def candScoreOr (cfg : ExtractorConfig) (cands : List Candidate) (e : Elem) : ℚ :=
  match findCandidate cands e.id with
  | some c => c.content_score
  | none => (score_node cfg e).content_score

/-- Modelled from the spec (claim C2): `delta = 1 + (count of commas in the
element's cleaned text) + min(text_length/100, 3)`. -/
def deltaSpec (inner_text : List Char) : ℚ :=
  1 + (inner_text.count ',' : ℚ) + min ((inner_text.length : ℚ) / 100) 3

/-- Modelled from the spec (claim C3): the final scaling with `text_length`
read as the cleaned (whitespace-collapsed, trimmed) text content length of
the element itself. -/
def scaleCandidateSpec (c : Candidate) : Candidate :=
  ⟨scaledScore c.content_score (get_link_density c.elem) (text_length c.elem), c.elem⟩

/-- Modelled from the spec (claim C7): the first candidate, in insertion
order, whose score is maximal over the whole set. -/
def selectBestSpec (cands : List Candidate) : Option Candidate :=
  cands.find? (fun c => cands.all (fun d => decide (d.content_score ≤ c.content_score)))

/-- Modelled from the spec (claim C5): the `table`, `ul` and `div` elements
of the fragment in reverse document order, deepest/last first. -/
def specReverseOrder (node : Elem) : List Nat :=
  (((descendants node).filter (fun e => ["table", "ul", "div"].contains e.tag)).map
    Elem.id).reverse

/-- Modelled from the spec (claim C4): restart when ruthless and the
sanitized result's CLEANED TEXT length is below 250. -/
def specLengthRetryCond (ruthless : Bool) (article : Elem) : Bool :=
  ruthless && decide ((clean (text_content article)).length < RETRY_LENGTH)

/-- An element `narrow_scope` reacts to: `itemprop='articleBody'`, an
`article` tag, or a `body` tag. -/
def isNarrowTarget (e : Elem) : Bool :=
  e.get "itemprop" == some "articleBody" || e.tag = "article" || e.tag = "body"

/-- First maximal candidate by a left fold, preferring the earlier element
on ties; proof-side bridge between the stable sort and `selectBestSpec`. -/
def firstMax : List Candidate → Option Candidate
  | [] => none
  | x :: xs =>
    match firstMax xs with
    | none => some x
    | some y => if y.content_score ≤ x.content_score then some x else some y

/-! ## Concrete example trees used by the counterexamples and witnesses -/

/-- A `div` with plain text only: no block-level descendant at all. -/
def divNoBlocks : Elem := .mk 1 "div" [] "This is long enough plain text." [] ""

def rootT1 : Elem := .mk 0 "body" [] "" [divNoBlocks] ""

/-- Thirty plain characters: a paragraph above the 25-character threshold
with no commas. -/
def t30 : String := "aaaaaaaaaaaaaaaaaaaaaaaaaaaaaa"

def pElem2 : Elem := .mk 2 "p" [] t30 [] ""

def divParent : Elem := .mk 1 "div" [] "" [pElem2] ""

/-- Thirty characters followed by five spaces: cleaned length 30, raw
text-content length 35. -/
def t35 : String := "aaaaaaaaaaaaaaaaaaaaaaaaaaaaaa     "

def pSpace : Elem := .mk 2 "p" [] t35 [] ""

def divRaw : Elem := .mk 1 "div" [] "" [pSpace] ""

/-- Candidate parent with a negative class weight (`class="sidebar"`),
holding one qualifying paragraph; variant A keeps the text bare (link
density 0). -/
def divSideA : Elem := .mk 1 "div" [("class", "sidebar")] "" [.mk 2 "p" [] t30 [] ""] ""

def rootA : Elem := .mk 0 "div" [] "" [divSideA] ""

/-- Variant B wraps the same text in an anchor (link density 1); the
paragraph's text content is unchanged. -/
def divSideB : Elem :=
  .mk 1 "div" [("class", "sidebar")] "" [.mk 2 "p" [] "" [.mk 3 "a" [] t30 [] ""] ""] ""

def rootB : Elem := .mk 0 "div" [] "" [divSideB] ""

/-- 240 plain characters. -/
def t240 : String := String.mk (List.replicate 240 'a')

/-- An assembled article fragment: output `div` root holding the best
candidate `div`, which holds a 240-character paragraph.  Serialized markup
length 258, cleaned text length 240. -/
def divInner : Elem := .mk 1 "div" [] "" [.mk 2 "p" [] t240 [] ""] ""

def artF : Elem := .mk 100 "div" [] "" [divInner] ""

/-- Ten commas: enough to skip `remove_unnecessary_element`. -/
def c10txt : String := ",,,,,,,,,,"

def tableC5 : Elem := .mk 1 "table" [] c10txt [] ""

def divC5 : Elem := .mk 2 "div" [] c10txt [] ""

/-- A fragment whose document order is table before div, so reverse
document order is div before table. -/
def rootC5 : Elem := .mk 0 "div" [] "" [tableC5, divC5] ""

/-- A minimal full document: `html > body > p`, with a 2-character
paragraph, so no candidate ever qualifies. -/
def docBody : Elem := .mk 0 "html" [] "" [.mk 1 "body" [] "" [.mk 2 "p" [] "hi" [] ""] ""] ""

/-- A full document with one long paragraph: the inner `div` becomes the
best candidate. -/
def docW : Elem :=
  .mk 0 "html" [] "" [.mk 1 "body" [] "" [.mk 2 "div" [] "" [.mk 3 "p" [] t240 [] ""] ""] ""] ""

/-! ## General lemmas -/

theorem check_keywords_default (s : String) : check_keywords defaultConfig s = 0 := by
  simp [check_keywords, defaultConfig]

theorem class_weight_noattrs (i : Nat) (t : String) (tx : String) (cs : List Elem)
    (tl : String) : class_weight defaultConfig (.mk i t [] tx cs tl) = 0 := by
  simp [class_weight, Elem.get, Elem.attrs, check_keywords_default]

theorem score_node_elem (cfg : ExtractorConfig) (e : Elem) : (score_node cfg e).elem = e := by
  simp [score_node]

theorem findCandidate_addScore (l : List Candidate) (i j : Nat) (d : ℚ) :
    findCandidate (addScore l j d) i =
      (findCandidate l i).map
        (fun c => if c.elem.id == j then ⟨c.content_score + d, c.elem⟩ else c) := by
  induction l with
  | nil => rfl
  | cons c l ih =>
    simp only [addScore, List.map_cons, findCandidate, List.find?] at ih ⊢
    have helem : (if c.elem.id == j then (⟨c.content_score + d, c.elem⟩ : Candidate) else c).elem
        = c.elem := by
      by_cases h : (c.elem.id == j) = true <;> simp [h]
    rw [helem]
    cases hpred : (c.elem.id == i) with
    | true => simp
    | false => simpa using ih

theorem scoreOfId_addScore_self (l : List Candidate) (i : Nat) (d : ℚ) :
    scoreOfId (addScore l i d) i = (scoreOfId l i).map (fun q => q + d) := by
  simp only [scoreOfId, findCandidate_addScore]
  cases hf : findCandidate l i with
  | none => rfl
  | some c =>
    have hc : c.elem.id = i := by simpa using List.find?_some hf
    simp [hc]

theorem scoreOfId_addScore_other (l : List Candidate) (i j : Nat) (d : ℚ) (h : i ≠ j) :
    scoreOfId (addScore l j d) i = scoreOfId l i := by
  simp only [scoreOfId, findCandidate_addScore]
  cases hf : findCandidate l i with
  | none => rfl
  | some c =>
    have hc2 : c.elem.id = i := by simpa using List.find?_some hf
    have hne : ¬ (c.elem.id = j) := by rw [hc2]; exact h
    simp [hne]

theorem findCandidate_append_one (l : List Candidate) (x : Candidate) (i : Nat) :
    findCandidate (l ++ [x]) i =
      (findCandidate l i).or (if x.elem.id == i then some x else none) := by
  simp only [findCandidate, List.find?_append]
  cases hx : (x.elem.id == i) <;> simp [List.find?, hx]

theorem findCandidate_append_ne (l : List Candidate) (x : Candidate) (i : Nat)
    (h : x.elem.id ≠ i) : findCandidate (l ++ [x]) i = findCandidate l i := by
  rw [findCandidate_append_one]
  have hb : (x.elem.id == i) = false := by simp [h]
  simp [hb]

theorem findCandidate_append_self (l : List Candidate) (x : Candidate)
    (hn : findCandidate l x.elem.id = none) :
    findCandidate (l ++ [x]) x.elem.id = some x := by
  rw [findCandidate_append_one, hn]
  simp

theorem splitOnComma_length (cs : List Char) :
    (splitOnComma cs).length = cs.count ',' + 1 := by
  induction cs with
  | nil => rfl
  | cons c cs ih =>
    by_cases h : c = ','
    . subst h
      simp [splitOnComma, List.count_cons, ih]
    . cases hr : splitOnComma cs with
      | nil => rw [hr] at ih; simp at ih
      | cons hh tt =>
        rw [hr] at ih
        simp only [splitOnComma, if_neg h, hr]
        simp only [List.length_cons] at ih ⊢
        rw [List.count_cons]
        simp [h, ih]

/-- Any `div` element's serialization is matched by `divToPElementsRe`: the
serialization begins with the element's own `<div` opening tag, which is one
of the pattern's alternatives. -/
theorem serialize_div_matchesDivToP (e : Elem) (h : e.tag = "div") :
    re_search divToPElementsAlt (serialize e) = true := by
  cases e with
  | mk i t a tx cs tl =>
    simp only [Elem.tag] at h
    subst h
    have hstart : ∃ rest, (serialize (Elem.mk i "div" a tx cs tl)).data =
        '<' :: 'd' :: 'i' :: 'v' :: rest := by
      refine ⟨serializeAttrs a ++
        (if tx = "" && cs.isEmpty then "/>".data
         else '>' :: (escText tx.data ++ serializeChildren cs ++
           '<' :: '/' :: ("div".data ++ ['>']))) ++ escText tl.data, ?_⟩
      simp [serialize, serializeL]
    obtain ⟨rest, hrest⟩ := hstart
    have hmem : "<div" ∈ divToPElementsAlt := by decide
    have hlow : lowerL ('<' :: 'd' :: 'i' :: 'v' :: rest) =
        '<' :: 'd' :: 'i' :: 'v' :: lowerL rest := by
      simp [lowerL, show Char.toLower '<' = '<' from rfl, show Char.toLower 'd' = 'd' from rfl,
        show Char.toLower 'i' = 'i' from rfl, show Char.toLower 'v' = 'v' from rfl]
    have hcont : containsL "<div".data (lowerL ('<' :: 'd' :: 'i' :: 'v' :: rest)) = true := by
      rw [hlow]
      show containsL ['<', 'd', 'i', 'v'] ('<' :: 'd' :: 'i' :: 'v' :: lowerL rest) = true
      simp [containsL, startsL]
    rw [re_search]
    rw [List.any_eq_true]
    exact ⟨"<div", hmem, by rw [hrest]; exact hcont⟩

/-! ## Claim C1 -/

/-- Claim C1 (code bug): the `div` in `rootT1` has no children at all — in
particular its subtree contains no nested block-level descendant tag — yet
`transform_misused_divs_into_paragraphs` leaves its tag `div`: the
serialization `tostring(elem)` the code searches starts with the element's
own `<div` opening tag, which `divToPElementsRe` always matches, so the
rename never fires on any `div`. -/
theorem c1_div_rename_code_bug :
    (∀ e : Elem, e.tag = "div" → re_search divToPElementsAlt (serialize e) = true) ∧
    divNoBlocks.children = [] ∧
    ((transform_misused_divs_into_paragraphs 100 rootT1).1.children.map Elem.tag) = ["div"] :=
  ⟨serialize_div_matchesDivToP, rfl, by decide⟩

/-- Witness for the universally quantified part of the claim-C1 theorem. -/
theorem c1_div_rename_code_bug_witness :
    re_search divToPElementsAlt (serialize divNoBlocks) = true ∧
    ((transform_misused_divs_into_paragraphs 100 rootT1).1.children.map Elem.tag) = ["div"] :=
  ⟨c1_div_rename_code_bug.1 divNoBlocks rfl, c1_div_rename_code_bug.2.2⟩

/-! ## Claim C2 -/

theorem score_node_divParent : score_node defaultConfig divParent = ⟨5, divParent⟩ := by
  have hname : String.mk (lowerL "div".data) = "div" := by decide
  simp only [score_node, divParent, Elem.tag, String.data] at hname ⊢
  simp [hname, class_weight_noattrs]

theorem inner_text_pElem2 : clean (text_content pElem2) = t30 := by decide

theorem contentScore_t30 : contentScoreOf t30.data = 23/10 := by
  have hs : (splitOnComma t30.data).length = 1 := by decide
  have hl : t30.data.length = 30 := by decide
  rw [contentScoreOf, hs, hl]
  norm_num

/-- Claim C2 counterexample: a 30-character comma-free paragraph under a
bare `div` parent.  The code adds `1 + len(split(',')) + min(len/100, 3)
 = 1 + 1 + 0.3 = 2.3` to the parent's `score_node` value of 5, giving 7.3;
the claim's formula `1 + (comma count) + min(len/100, 3) = 1.3` predicts
6.3. -/
theorem c2_counterexample :
    scoreOfId (scoreParagraphStep defaultConfig [] pElem2 [divParent]) 1 = some (73/10) ∧
    (score_node defaultConfig divParent).content_score +
      deltaSpec (clean (text_content pElem2)).data = 63/10 ∧
    (73/10 : ℚ) ≠ 63/10 := by
  refine ⟨?_, ?_, by norm_num⟩
  . rw [scoreParagraphStep]
    simp only [List.head?, inner_text_pElem2]
    have h25 : ¬ (t30.data.length < TEXT_LENGTH_THRESHOLD) := by decide
    simp only [String.length] at h25 ⊢
    rw [if_neg h25]
    simp only [findCandidate, List.find?, score_node_divParent]
    simp only [scoreOfId, findCandidate, addScore, List.map, List.find?]
    have hid : (Elem.id divParent == 1) = true := by decide
    simp only [hid, if_pos, cond, Option.map, contentScore_t30]
    simp [hid]
    norm_num
  . rw [score_node_divParent, inner_text_pElem2]
    have hc : (t30.data.count ',') = 0 := by decide
    have hl : t30.data.length = 30 := by decide
    rw [deltaSpec, hc, hl]
    norm_num

/-- Claim C2 as amended: for a qualifying paragraph (cleaned text at least
25 characters) with a parent and possibly a grandparent of distinct
identity, the per-paragraph body adds `delta` to the parent's score and
`delta / 2` to the grandparent's, where
`delta = 1 + (number of comma-separated segments of the cleaned text)
 + min(cleaned_length/100, 3) = 2 + (comma count) + min(cleaned_length/100, 3)`
— one more than the claim's comma count. -/
theorem c2_delta_amended (cfg : ExtractorConfig) (cands : List Candidate)
    (elem parent : Elem) (rest : List Elem)
    (hlen : TEXT_LENGTH_THRESHOLD ≤ (clean (text_content elem)).length)
    (hgp : ∀ gp ∈ rest.head?, gp.id ≠ parent.id) :
    scoreOfId (scoreParagraphStep cfg cands elem (parent :: rest)) parent.id =
      some (candScoreOr cfg cands parent + contentScoreOf (clean (text_content elem)).data) ∧
    (∀ gp ∈ rest.head?,
      scoreOfId (scoreParagraphStep cfg cands elem (parent :: rest)) gp.id =
        some (candScoreOr cfg cands gp + contentScoreOf (clean (text_content elem)).data / 2)) ∧
    contentScoreOf (clean (text_content elem)).data =
      2 + ((clean (text_content elem)).data.count ',' : ℚ) +
        min (((clean (text_content elem)).data.length : ℚ) / 100) 3 := by
  have hformula : contentScoreOf (clean (text_content elem)).data =
      2 + ((clean (text_content elem)).data.count ',' : ℚ) +
        min (((clean (text_content elem)).data.length : ℚ) / 100) 3 := by
    rw [contentScoreOf, splitOnComma_length]
    push_cast
    ring
  have hnot : ¬ ((clean (text_content elem)).data.length < TEXT_LENGTH_THRESHOLD) := by
    have : (clean (text_content elem)).length = (clean (text_content elem)).data.length := rfl
    omega
  set cs := contentScoreOf (clean (text_content elem)).data with hcs
  cases rest with
  | nil =>
    refine ⟨?_, by simp, hformula⟩
    simp only [scoreParagraphStep, List.head?, if_neg hnot]
    cases hp : findCandidate cands parent.id with
    | some c0 =>
      simp only [hp, Option.isSome_some, eq_self_iff_true, if_true, ite_true]
      rw [scoreOfId_addScore_self]
      simp [scoreOfId, hp, candScoreOr]
    | none =>
      simp only [hp, Option.isSome_none, Bool.false_eq_true, if_false, ite_false]
      rw [scoreOfId_addScore_self]
      have hid : (score_node cfg parent).elem.id = parent.id := by rw [score_node_elem]
      have happ : findCandidate (cands ++ [score_node cfg parent]) parent.id
          = some (score_node cfg parent) := by
        rw [← hid] at hp ⊢
        exact findCandidate_append_self cands _ hp
      simp [scoreOfId, happ, candScoreOr, hp]
  | cons gp rest2 =>
    have hne : gp.id ≠ parent.id := hgp gp (by simp)
    refine ⟨?_, ?_, hformula⟩
    all_goals
      simp only [scoreParagraphStep, List.head?, if_neg hnot]
    . cases hp : findCandidate cands parent.id with
      | some c0 =>
        simp only [hp, Option.isSome_some, eq_self_iff_true, if_true, ite_true]
        cases hq : findCandidate cands gp.id with
        | some c1 =>
          simp only [hq, Option.isSome_some, eq_self_iff_true, if_true, ite_true]
          rw [scoreOfId_addScore_other _ _ _ _ (fun h => hne h.symm),
            scoreOfId_addScore_self]
          simp [scoreOfId, hp, candScoreOr]
        | none =>
          simp only [hq, Option.isSome_none, Bool.false_eq_true, if_false, ite_false]
          rw [scoreOfId_addScore_other _ _ _ _ (fun h => hne h.symm),
            scoreOfId_addScore_self]
          have happ : findCandidate (cands ++ [score_node cfg gp]) parent.id
              = findCandidate cands parent.id := by
            apply findCandidate_append_ne
            rw [score_node_elem]; exact hne
          simp [scoreOfId, happ, hp, candScoreOr]
      | none =>
        simp only [hp, Option.isSome_none, Bool.false_eq_true, if_false, ite_false]
        have hid : (score_node cfg parent).elem.id = parent.id := by rw [score_node_elem]
        have happ1 : findCandidate (cands ++ [score_node cfg parent]) parent.id
            = some (score_node cfg parent) := by
          rw [← hid] at hp ⊢
          exact findCandidate_append_self cands _ hp
        have hq2 : findCandidate (cands ++ [score_node cfg parent]) gp.id
            = findCandidate cands gp.id := by
          apply findCandidate_append_ne
          rw [score_node_elem]; exact fun h => hne h.symm
        cases hq : findCandidate cands gp.id with
        | some c1 =>
          rw [hq] at hq2
          simp only [hq2, Option.isSome_some, eq_self_iff_true, if_true, ite_true]
          rw [scoreOfId_addScore_other _ _ _ _ (fun h => hne h.symm),
            scoreOfId_addScore_self]
          simp [scoreOfId, happ1, candScoreOr, hp]
        | none =>
          rw [hq] at hq2
          simp only [hq2, Option.isSome_none, Bool.false_eq_true, if_false, ite_false]
          have happ2 : findCandidate ((cands ++ [score_node cfg parent]) ++ [score_node cfg gp])
              parent.id = some (score_node cfg parent) := by
            rw [findCandidate_append_ne]
            . exact happ1
            . rw [score_node_elem]; exact hne
          simp only [List.append_assoc, List.singleton_append] at happ2
          rw [scoreOfId_addScore_other _ _ _ _ (fun h => hne h.symm),
            scoreOfId_addScore_self]
          simp [scoreOfId, happ2, candScoreOr, hp]
    . intro gp2 hgp2
      simp only [Option.mem_def, Option.some.injEq] at hgp2
      subst hgp2
      cases hp : findCandidate cands parent.id with
      | some c0 =>
        simp only [hp, Option.isSome_some, eq_self_iff_true, if_true, ite_true]
        cases hq : findCandidate cands gp.id with
        | some c1 =>
          simp only [hq, Option.isSome_some, eq_self_iff_true, if_true, ite_true]
          rw [scoreOfId_addScore_self, scoreOfId_addScore_other _ _ _ _ hne]
          simp [scoreOfId, hq, candScoreOr]
        | none =>
          simp only [hq, Option.isSome_none, Bool.false_eq_true, if_false, ite_false]
          have hidg : (score_node cfg gp).elem.id = gp.id := by rw [score_node_elem]
          have happ : findCandidate (cands ++ [score_node cfg gp]) gp.id
              = some (score_node cfg gp) := by
            rw [← hidg] at hq ⊢
            exact findCandidate_append_self cands _ hq
          rw [scoreOfId_addScore_self, scoreOfId_addScore_other _ _ _ _ hne]
          simp [scoreOfId, happ, candScoreOr, hq]
      | none =>
        simp only [hp, Option.isSome_none, Bool.false_eq_true, if_false, ite_false]
        have hq2 : findCandidate (cands ++ [score_node cfg parent]) gp.id
            = findCandidate cands gp.id := by
          apply findCandidate_append_ne
          rw [score_node_elem]; exact fun h => hne h.symm
        cases hq : findCandidate cands gp.id with
        | some c1 =>
          rw [hq] at hq2
          simp only [hq2, Option.isSome_some, eq_self_iff_true, if_true, ite_true]
          rw [scoreOfId_addScore_self, scoreOfId_addScore_other _ _ _ _ hne]
          simp [scoreOfId, hq2, candScoreOr, hq]
        | none =>
          rw [hq] at hq2
          simp only [hq2, Option.isSome_none, Bool.false_eq_true, if_false, ite_false]
          have hidg : (score_node cfg gp).elem.id = gp.id := by rw [score_node_elem]
          have happ : findCandidate ((cands ++ [score_node cfg parent]) ++ [score_node cfg gp])
              gp.id = some (score_node cfg gp) := by
            rw [← hidg] at hq2 ⊢
            exact findCandidate_append_self _ _ hq2
          simp only [List.append_assoc, List.singleton_append] at happ
          rw [scoreOfId_addScore_self, scoreOfId_addScore_other _ _ _ _ hne]
          simp [scoreOfId, happ, candScoreOr, hq]

/-- Witness for the amended claim C2 at the concrete paragraph of the
counterexample. -/
theorem c2_delta_amended_witness :
    scoreOfId (scoreParagraphStep defaultConfig [] pElem2 [divParent]) 1 =
      some (candScoreOr defaultConfig [] divParent +
        contentScoreOf (clean (text_content pElem2)).data) := by
  have h := (c2_delta_amended defaultConfig [] pElem2 divParent []
    (by rw [inner_text_pElem2]; decide) (by simp)).1
  simpa using h

/-! ## Claim C3 -/

theorem score_node_divRaw : score_node defaultConfig divRaw = ⟨5, divRaw⟩ := by
  have hname : String.mk (lowerL "div".data) = "div" := by decide
  simp only [score_node, divRaw, Elem.tag, String.data] at hname ⊢
  simp [hname, class_weight_noattrs]

theorem inner_text_pSpace : clean (text_content pSpace) = t30 := by decide

/-- The accumulation phase on `divRaw` produces one candidate with
pre-scaling score `5 + 2.3`. -/
theorem c3_raw_eval : score_paragraphs_raw defaultConfig [] divRaw =
    [⟨5 + contentScoreOf t30.data, divRaw⟩] := by
  have hfold : score_paragraphs_raw defaultConfig [] divRaw =
      scoreParagraphStep defaultConfig [] pSpace [divRaw] := rfl
  rw [hfold, scoreParagraphStep]
  simp only [List.head?, inner_text_pSpace]
  have h25 : ¬ (t30.data.length < TEXT_LENGTH_THRESHOLD) := by decide
  rw [if_neg h25]
  simp only [findCandidate, List.find?, score_node_divRaw]
  simp only [addScore, List.map]
  have hid : (Elem.id divRaw == 1) = true := by decide
  simp [hid]

theorem link_density_divRaw : get_link_density divRaw = 0 := by
  have ha : findAllTag "a" divRaw = [] := rfl
  rw [get_link_density, ha]
  norm_num

/-- Claim C3 counterexample: the candidate `divRaw` has cleaned text length
30 but raw text-content length 35.  The code multiplies by
`1 + 35/500`, giving `7.3 * 1.07 = 7.811`; the claim's cleaned length
predicts `7.3 * 1.06 = 7.738`. -/
theorem c3_counterexample :
    scoreOfId (score_paragraphs defaultConfig [] divRaw) 1 = some (7811/1000) ∧
    scoreOfId ((score_paragraphs_raw defaultConfig [] divRaw).map scaleCandidateSpec) 1 =
      some (7738/1000) ∧
    ((7811 : ℚ)/1000) ≠ 7738/1000 := by
  have hraw35 : (textContentL divRaw).length = 35 := by decide
  have htl : text_length divRaw = 30 := by decide
  have hid : (Elem.id divRaw == 1) = true := by decide
  refine ⟨?_, ?_, by norm_num⟩
  . rw [score_paragraphs, c3_raw_eval]
    simp only [List.map, scaleCandidate, scoreOfId, findCandidate, List.find?, hid,
      link_density_divRaw, hraw35]
    simp only [cond, Option.map, contentScore_t30]
    rw [scaledScore]
    norm_num
  . rw [c3_raw_eval]
    simp only [List.map, scaleCandidateSpec, scoreOfId, findCandidate, List.find?, hid,
      link_density_divRaw, htl]
    simp only [cond, Option.map, contentScore_t30]
    rw [scaledScore]
    norm_num

/-- Claim C3 as amended: the scaling loop rewrites the candidate at each
position exactly once, in first-seen order, to
`score * (1 - link_density) * (1 + raw_text_content_length / 500)` — the
second factor uses the raw, uncleaned `len(elem.text_content())`, not the
cleaned text length. -/
theorem c3_scaling_amended (cfg : ExtractorConfig) (ctx : List Elem) (root : Elem)
    (i : Nat) (c : Candidate)
    (h : (score_paragraphs_raw cfg ctx root)[i]? = some c) :
    (score_paragraphs cfg ctx root)[i]? =
      some ⟨scaledScore c.content_score (get_link_density c.elem)
        (textContentL c.elem).length, c.elem⟩ ∧
    (score_paragraphs cfg ctx root).length = (score_paragraphs_raw cfg ctx root).length := by
  constructor
  . rw [score_paragraphs, List.getElem?_map, h]
    rfl
  . rw [score_paragraphs, List.length_map]

/-- Witness for the amended claim C3 at the concrete candidate of the
counterexample. -/
theorem c3_scaling_amended_witness :
    (score_paragraphs defaultConfig [] divRaw)[0]? =
      some ⟨scaledScore (5 + contentScoreOf t30.data) (get_link_density divRaw)
        (textContentL divRaw).length, divRaw⟩ :=
  (c3_scaling_amended defaultConfig [] divRaw 0 ⟨5 + contentScoreOf t30.data, divRaw⟩
    (by rw [c3_raw_eval]; rfl)).1

/-! ## Claim C6 -/

theorem scaleCandidate_elem (c : Candidate) : (scaleCandidate c).elem = c.elem := rfl

theorem findCandidate_map_scale (l : List Candidate) (i : Nat) :
    findCandidate (l.map scaleCandidate) i = (findCandidate l i).map scaleCandidate := by
  induction l with
  | nil => rfl
  | cons c l ih =>
    simp only [List.map_cons, findCandidate, List.find?, scaleCandidate_elem] at ih ⊢
    cases hpred : (c.elem.id == i) with
    | true => simp
    | false => simpa using ih

theorem class_weight_divSideA : class_weight defaultConfig divSideA = -25 := by
  have hneg : re_match negativeAlt "sidebar" = true := by decide
  have hpos : re_match positiveAlt "sidebar" = false := by decide
  simp [class_weight, Elem.get, Elem.attrs, divSideA, Elem.tag, check_keywords_default,
    check_regexes, hneg, hpos, List.find?]

theorem class_weight_divSideB : class_weight defaultConfig divSideB = -25 := by
  have hneg : re_match negativeAlt "sidebar" = true := by decide
  have hpos : re_match positiveAlt "sidebar" = false := by decide
  simp [class_weight, Elem.get, Elem.attrs, divSideB, Elem.tag, check_keywords_default,
    check_regexes, hneg, hpos, List.find?]

theorem c6_rawA_eval : score_paragraphs_raw defaultConfig [] rootA =
    [⟨(score_node defaultConfig divSideA).content_score + contentScoreOf t30.data, divSideA⟩,
     ⟨(score_node defaultConfig rootA).content_score + contentScoreOf t30.data / 2, rootA⟩] := by
  have hfold : score_paragraphs_raw defaultConfig [] rootA =
      scoreParagraphStep defaultConfig [] (.mk 2 "p" [] t30 [] "") [divSideA, rootA] := rfl
  rw [hfold, scoreParagraphStep]
  simp only [List.head?]
  have hinner : clean (text_content (Elem.mk 2 "p" [] t30 [] "")) = t30 := by decide
  rw [hinner]
  have h25 : ¬ (t30.data.length < TEXT_LENGTH_THRESHOLD) := by decide
  rw [if_neg h25]
  simp only [findCandidate, List.find?, score_node_elem]
  simp only [show (Elem.id divSideA == Elem.id rootA) = false from by decide,
    Option.isSome_none, Option.isSome_some, Bool.false_eq_true, ite_false, if_false,
    List.nil_append, List.singleton_append]
  simp only [addScore, List.map_cons, List.map_nil, score_node_elem,
    show (Elem.id divSideA == Elem.id divSideA) = true from by decide,
    show (Elem.id rootA == Elem.id divSideA) = false from by decide,
    show (Elem.id rootA == Elem.id rootA) = true from by decide,
    show (Elem.id divSideA == Elem.id rootA) = false from by decide,
    ite_true, ite_false, if_true, if_false]
  simp [score_node_elem]

theorem c6_rawB_eval : score_paragraphs_raw defaultConfig [] rootB =
    [⟨(score_node defaultConfig divSideB).content_score + contentScoreOf t30.data, divSideB⟩,
     ⟨(score_node defaultConfig rootB).content_score + contentScoreOf t30.data / 2, rootB⟩] := by
  have hfold : score_paragraphs_raw defaultConfig [] rootB =
      scoreParagraphStep defaultConfig []
        (.mk 2 "p" [] "" [.mk 3 "a" [] t30 [] ""] "") [divSideB, rootB] := rfl
  rw [hfold, scoreParagraphStep]
  simp only [List.head?]
  have hinner : clean (text_content (Elem.mk 2 "p" [] "" [.mk 3 "a" [] t30 [] ""] "")) = t30 := by
    decide
  rw [hinner]
  have h25 : ¬ (t30.data.length < TEXT_LENGTH_THRESHOLD) := by decide
  rw [if_neg h25]
  simp only [findCandidate, List.find?, score_node_elem]
  simp only [show (Elem.id divSideB == Elem.id rootB) = false from by decide,
    Option.isSome_none, Option.isSome_some, Bool.false_eq_true, ite_false, if_false,
    List.nil_append, List.singleton_append]
  simp only [addScore, List.map_cons, List.map_nil, score_node_elem,
    show (Elem.id divSideB == Elem.id divSideB) = true from by decide,
    show (Elem.id rootB == Elem.id divSideB) = false from by decide,
    show (Elem.id rootB == Elem.id rootB) = true from by decide,
    show (Elem.id divSideB == Elem.id rootB) = false from by decide,
    ite_true, ite_false, if_true, if_false]
  simp [score_node_elem]

theorem score_node_divSideA : (score_node defaultConfig divSideA).content_score = -20 := by
  have hname : String.mk (lowerL "div".data) = "div" := by decide
  simp only [score_node, divSideA, Elem.tag, String.data] at hname ⊢
  rw [show class_weight defaultConfig (Elem.mk 1 "div" [("class", "sidebar")] ""
    [Elem.mk 2 "p" [] t30 [] ""] "") = -25 from class_weight_divSideA]
  simp [hname]
  norm_num

theorem score_node_divSideB : (score_node defaultConfig divSideB).content_score = -20 := by
  have hname : String.mk (lowerL "div".data) = "div" := by decide
  simp only [score_node, divSideB, Elem.tag, String.data] at hname ⊢
  rw [show class_weight defaultConfig (Elem.mk 1 "div" [("class", "sidebar")] ""
    [Elem.mk 2 "p" [] "" [Elem.mk 3 "a" [] t30 [] ""] ""] "") = -25 from class_weight_divSideB]
  simp [hname]
  norm_num

theorem link_density_divSideA : get_link_density divSideA = 0 := by
  have ha : findAllTag "a" divSideA = [] := rfl
  rw [get_link_density, ha]
  norm_num

theorem link_density_divSideB : get_link_density divSideB = 1 := by
  have ha : findAllTag "a" divSideB = [Elem.mk 3 "a" [] t30 [] ""] := rfl
  have h1 : text_length (Elem.mk 3 "a" [] t30 [] "") = 30 := by decide
  have h2 : text_length divSideB = 30 := by decide
  rw [get_link_density, ha]
  simp only [List.map, h1, h2]
  norm_num

/-- Claim C6 counterexample: the two trees hold the same paragraph text,
but in `rootB` it sits inside an anchor, raising the candidate's link
density from 0 to 1.  The candidate's accumulated score is negative
(−20 + 2.3 = −17.7), so the scaling step RAISES the final score, from
−17.7·1.06 = −18.762 to 0. -/
theorem c6_counterexample :
    get_link_density divSideA = 0 ∧
    get_link_density divSideB = 1 ∧
    textContentL divSideA = textContentL divSideB ∧
    scoreOfId (score_paragraphs defaultConfig [] rootA) 1 = some (-9381/500) ∧
    scoreOfId (score_paragraphs defaultConfig [] rootB) 1 = some 0 ∧
    ((-9381 : ℚ)/500) < 0 := by
  have hrawA : (textContentL divSideA).length = 30 := by decide
  have hrawB : (textContentL divSideB).length = 30 := by decide
  refine ⟨link_density_divSideA, link_density_divSideB, by decide, ?_, ?_, by norm_num⟩
  . rw [score_paragraphs, scoreOfId, findCandidate_map_scale, c6_rawA_eval]
    have h11 : (Elem.id divSideA == 1) = true := by decide
    simp only [findCandidate, List.find?, h11]
    simp only [Option.map, scaleCandidate, scaleCandidate_elem, link_density_divSideA, hrawA,
      score_node_divSideA, contentScore_t30]
    rw [scaledScore]
    norm_num
  . rw [score_paragraphs, scoreOfId, findCandidate_map_scale, c6_rawB_eval]
    have h11 : (Elem.id divSideB == 1) = true := by decide
    simp only [findCandidate, List.find?, h11]
    simp only [Option.map, scaleCandidate, scaleCandidate_elem, link_density_divSideB, hrawB,
      score_node_divSideB, contentScore_t30]
    rw [scaledScore]
    norm_num

/-- Claim C6 as amended: the scaled score is monotonically non-increasing
in the link density PROVIDED the candidate's accumulated (pre-scaling)
score is nonnegative; a negative accumulated score moves toward zero
instead. -/
theorem c6_monotone_amended (s ld1 ld2 : ℚ) (L : Nat) (hs : 0 ≤ s) (hld : ld1 ≤ ld2) :
    scaledScore s ld2 L ≤ scaledScore s ld1 L := by
  rw [scaledScore, scaledScore]
  have hpos : (0 : ℚ) < 1 + (L : ℚ)/500 := by positivity
  apply mul_le_mul_of_nonneg_right _ (le_of_lt hpos)
  apply mul_le_mul_of_nonneg_left _ hs
  linarith

/-- Witness for the amended claim C6 at concrete values. -/
theorem c6_monotone_amended_witness : scaledScore 1 (1/2) 0 ≤ scaledScore 1 0 0 :=
  c6_monotone_amended 1 0 (1/2) 0 (by norm_num) (by norm_num)

/-! ## Claim C7 -/

theorem insertCandidate_head (x : Candidate) (ys : List Candidate) :
    (insertCandidate x ys).head? =
      match ys.head? with
      | none => some x
      | some y => if y.content_score ≤ x.content_score then some x else some y := by
  cases ys with
  | nil => rfl
  | cons y ys =>
    by_cases h : y.content_score ≤ x.content_score <;>
      simp [insertCandidate, h, List.head?]

theorem sortCandidates_head (l : List Candidate) :
    (sortCandidates l).head? = firstMax l := by
  induction l with
  | nil => rfl
  | cons x xs ih =>
    rw [sortCandidates, insertCandidate_head, ih, firstMax]

theorem firstMax_mem (l : List Candidate) (y : Candidate) (h : firstMax l = some y) :
    y ∈ l := by
  induction l generalizing y with
  | nil => simp [firstMax] at h
  | cons x xs ih =>
    rw [firstMax] at h
    cases hf : firstMax xs with
    | none =>
      simp only [hf] at h
      injection h with h2
      subst h2
      exact List.mem_cons_self x xs
    | some z =>
      simp only [hf] at h
      by_cases hle : z.content_score ≤ x.content_score
      . rw [if_pos hle] at h
        injection h with h2
        subst h2
        exact List.mem_cons_self x xs
      . rw [if_neg hle] at h
        injection h with h2
        subst h2
        exact List.mem_cons_of_mem x (ih z hf)

theorem firstMax_eq_none (l : List Candidate) (h : firstMax l = none) : l = [] := by
  cases l with
  | nil => rfl
  | cons x xs =>
    rw [firstMax] at h
    cases hf : firstMax xs with
    | none => simp [hf] at h
    | some z =>
      simp only [hf] at h
      split at h <;> simp at h

theorem firstMax_max (l : List Candidate) (y : Candidate) (h : firstMax l = some y) :
    ∀ d ∈ l, d.content_score ≤ y.content_score := by
  induction l generalizing y with
  | nil => simp
  | cons x xs ih =>
    rw [firstMax] at h
    cases hf : firstMax xs with
    | none =>
      have hnil := firstMax_eq_none xs hf
      subst hnil
      simp only [hf] at h
      injection h with h2
      subst h2
      simp
    | some z =>
      simp only [hf] at h
      intro d hd
      rcases List.mem_cons.mp hd with hdx | hdxs
      . rw [hdx]
        by_cases hle : z.content_score ≤ x.content_score
        . rw [if_pos hle] at h
          injection h with h2
          subst h2
          exact le_refl _
        . rw [if_neg hle] at h
          injection h with h2
          subst h2
          linarith [lt_of_not_le hle]
      . have hz := ih z hf d hdxs
        by_cases hle : z.content_score ≤ x.content_score
        . rw [if_pos hle] at h
          injection h with h2
          subst h2
          linarith
        . rw [if_neg hle] at h
          injection h with h2
          subst h2
          exact hz

theorem find?_congr_mem (l : List Candidate) (p q : Candidate → Bool)
    (h : ∀ a ∈ l, p a = q a) : l.find? p = l.find? q := by
  induction l with
  | nil => rfl
  | cons x xs ih =>
    have hx := h x (by simp)
    simp only [List.find?, hx]
    cases hq : q x with
    | true => rfl
    | false => exact ih (fun a ha => h a (List.mem_cons_of_mem x ha))

/-- Claim C7: `select_best_candidate` returns exactly the first candidate,
in insertion order, whose score is maximal over the whole set, and `none`
on the empty set — `selectBestSpec` is the spec's description. -/
theorem c7_select_best_confirmed (cands : List Candidate) :
    select_best_candidate cands = selectBestSpec cands := by
  induction cands with
  | nil => rfl
  | cons x xs ih =>
    rw [select_best_candidate, sortCandidates_head] at ih ⊢
    rw [selectBestSpec] at ih ⊢
    rw [firstMax]
    by_cases hx : (xs.all fun d => decide (d.content_score ≤ x.content_score)) = true
    . have hpx : ((x :: xs).all fun d => decide (d.content_score ≤ x.content_score)) = true := by
        simp only [List.all_cons, hx, Bool.and_true, decide_eq_true_eq]
        simp
      have hfind : (x :: xs).find?
          (fun c => (x :: xs).all fun d => decide (d.content_score ≤ c.content_score))
            = some x := by
        simp only [List.find?, hpx]
      rw [hfind]
      cases hf : firstMax xs with
      | none => rfl
      | some y =>
        have hy : y.content_score ≤ x.content_score := by
          have := List.all_eq_true.mp hx y (firstMax_mem xs y hf)
          simpa using this
        show (if y.content_score ≤ x.content_score then some x else some y) = some x
        rw [if_pos hy]
    . have hxd : ∃ d ∈ xs, ¬ (d.content_score ≤ x.content_score) := by
        by_contra hcon
        push_neg at hcon
        refine hx (List.all_eq_true.mpr (fun d hd => ?_))
        simpa using hcon d hd
      obtain ⟨d, hd, hdgt⟩ := hxd
      have hxlt : x.content_score < d.content_score := lt_of_not_le hdgt
      have hpx : ((x :: xs).all fun dd => decide (dd.content_score ≤ x.content_score))
          = false := by
        simp only [List.all_cons, Bool.and_eq_false_iff]
        right
        rw [List.all_eq_false]
        exact ⟨d, hd, by simpa using hdgt⟩
      have hfind : (x :: xs).find?
          (fun c => (x :: xs).all fun dd => decide (dd.content_score ≤ c.content_score)) =
          xs.find?
            (fun c => (x :: xs).all fun dd => decide (dd.content_score ≤ c.content_score)) := by
        simp only [List.find?, hpx]
      rw [hfind]
      cases hf : firstMax xs with
      | none =>
        have hnil := firstMax_eq_none xs hf
        subst hnil
        simp at hd
      | some y =>
        have hymax := firstMax_max xs y hf
        have hygt : ¬ (y.content_score ≤ x.content_score) := by
          have := hymax d hd
          intro hcon
          linarith
        show (if y.content_score ≤ x.content_score then some x else some y) =
          xs.find? (fun c => (x :: xs).all fun dd => decide (dd.content_score ≤ c.content_score))
        rw [if_neg hygt, ← hf, ih]
        apply (find?_congr_mem xs _ _ ?_).symm
        intro c hc
        simp only [List.all_cons]
        by_cases hq : (xs.all fun dd => decide (dd.content_score ≤ c.content_score)) = true
        . have hcx : x.content_score ≤ c.content_score := by
            have h1 := List.all_eq_true.mp hq d hd
            have h2 : d.content_score ≤ c.content_score := by simpa using h1
            linarith
          simp [hq, hcx]
        . have hq2 : (xs.all fun dd => decide (dd.content_score ≤ c.content_score)) = false := by
            simpa using hq
          simp [hq2]

/-! ## Claim C5 -/

theorem descendantsWithPaths_def (e : Elem) :
    descendantsWithPaths e = dwpChildren 0 e.children := by
  cases e
  rfl

theorem mem_dwpChildren (cs : List Elem) (i : Nat) (p : List Nat) (x : Elem)
    (h : (p, x) ∈ dwpChildren i cs) :
    ∃ j rest c, p = j :: rest ∧ i ≤ j ∧ cs.get? (j - i) = some c ∧
      ((rest = [] ∧ c = x) ∨ (rest, x) ∈ descendantsWithPaths c) := by
  induction cs generalizing i with
  | nil => simp [dwpChildren] at h
  | cons c cs ih =>
    rw [dwpChildren] at h
    rcases List.mem_cons.mp h with h1 | h2
    . have hp : p = [i] ∧ x = c := by
        constructor <;> [exact congrArg Prod.fst h1; exact congrArg Prod.snd h1]
      refine ⟨i, [], c, hp.1, le_refl i, ?_, Or.inl ⟨rfl, hp.2.symm⟩⟩
      simp
    . rcases List.mem_append.mp h2 with h3 | h4
      . obtain ⟨pe, hpe, heq⟩ := List.mem_map.mp h3
        have hp : p = i :: pe.1 ∧ x = pe.2 := by
          constructor <;> [exact (congrArg Prod.fst heq).symm; exact (congrArg Prod.snd heq).symm]
        refine ⟨i, pe.1, c, hp.1, le_refl i, by simp, Or.inr ?_⟩
        rw [hp.2]
        simpa using hpe
      . obtain ⟨j, rest, c2, hp, hij, hget, hrest⟩ := ih (i + 1) h4
        refine ⟨j, rest, c2, hp, by omega, ?_, hrest⟩
        have hji : j - i = (j - (i + 1)) + 1 := by omega
        rw [hji]
        simpa using hget

theorem subtreeAt_dwp_aux : ∀ (n : Nat) (e : Elem) (p : List Nat) (x : Elem),
    p.length ≤ n → (p, x) ∈ descendantsWithPaths e → subtreeAt p e = some x := by
  intro n
  induction n with
  | zero =>
    intro e p x hlen hmem
    rw [descendantsWithPaths_def] at hmem
    obtain ⟨j, rest, c, hp, _, _, _⟩ := mem_dwpChildren _ _ _ _ hmem
    subst hp
    simp at hlen
  | succ n ih =>
    intro e p x hlen hmem
    rw [descendantsWithPaths_def] at hmem
    obtain ⟨j, rest, c, hp, _, hget, hcase⟩ := mem_dwpChildren _ _ _ _ hmem
    subst hp
    simp only [Nat.sub_zero] at hget
    rw [List.get?_eq_getElem?] at hget
    rcases hcase with ⟨hrest, hcx⟩ | hrec
    . subst hrest
      subst hcx
      simp [subtreeAt, hget]
    . have hlen2 : rest.length ≤ n := by
        simp only [List.length_cons] at hlen
        omega
      have := ih c rest x hlen2 hrec
      simp [subtreeAt, hget, this]

/-- Every entry of `descendantsWithPaths` is faithful: looking its path up
in the tree returns exactly that element. -/
theorem subtreeAt_dwp (e : Elem) (p : List Nat) (x : Elem)
    (h : (p, x) ∈ descendantsWithPaths e) : subtreeAt p e = some x :=
  subtreeAt_dwp_aux p.length e p x (le_refl _) h

theorem filterMap_eq_map_of {α β : Type} (l : List α) (f : α → Option β) (g : α → β)
    (h : ∀ a ∈ l, f a = some (g a)) : l.filterMap f = l.map g := by
  induction l with
  | nil => rfl
  | cons a l ih =>
    rw [List.filterMap_cons, h a (by simp), List.map_cons,
      ih (fun b hb => h b (List.mem_cons_of_mem a hb))]

/-- A conditional-cleaning step that neither skips, drops, nor calls the
secondary heuristic: it only records the element in the trace. -/
theorem condCleanStep_noop (cfg : ExtractorConfig) (cands : List Candidate) (st : CondState)
    (path : List Nat) (el : Elem)
    (hsub : subtreeAt path st.tree = some el)
    (hallowed : st.allowed.contains el.id = false)
    (hscore : ¬ (class_weight cfg el + scoreOr0 cands el.id < 0))
    (hcommas : ¬ ((textContentL el).count ',' < 10)) :
    condCleanStep cfg cands st path = ⟨st.tree, st.allowed, st.trace ++ [el.id]⟩ := by
  rw [condCleanStep, hsub]
  simp only [hallowed, Bool.false_eq_true, if_false, ite_false]
  rw [if_neg hscore, if_neg hcommas]

theorem condCleanSteps_noop (cfg : ExtractorConfig) (cands : List Candidate) (tree : Elem)
    (paths : List (List Nat)) (trace : List Nat)
    (h : ∀ p ∈ paths, ∃ el, subtreeAt p tree = some el ∧
        ¬ (class_weight cfg el + scoreOr0 cands el.id < 0) ∧
        ¬ ((textContentL el).count ',' < 10)) :
    paths.foldl (condCleanStep cfg cands) ⟨tree, [], trace⟩ =
      ⟨tree, [], trace ++ paths.filterMap (fun p => (subtreeAt p tree).map Elem.id)⟩ := by
  induction paths generalizing trace with
  | nil => simp
  | cons p ps ih =>
    obtain ⟨el, hsub, hsc, hcm⟩ := h p (by simp)
    rw [List.foldl_cons,
      condCleanStep_noop cfg cands ⟨tree, [], trace⟩ p el hsub rfl hsc hcm,
      ih (trace ++ [el.id]) (fun q hq => h q (List.mem_cons_of_mem p hq))]
    rw [List.filterMap_cons, hsub]
    simp

/-- One phase of the conditional pass on a tree whose matching elements all
take the no-action branch: the tree and the allowed set are unchanged and
the trace grows by the phase's elements in reverse document order. -/
theorem condCleanPhase_noop (cfg : ExtractorConfig) (cands : List Candidate) (t : String)
    (node : Elem) (trace : List Nat)
    (h : ∀ e ∈ descendants node, e.tag = t →
        ¬ (class_weight cfg e + scoreOr0 cands e.id < 0) ∧
        ¬ ((textContentL e).count ',' < 10)) :
    condCleanPhase cfg cands t ⟨node, [], trace⟩ =
      ⟨node, [], trace ++ ((findAllTag t node).map Elem.id).reverse⟩ := by
  have hmem : ∀ pe ∈ findAllPairs t node, subtreeAt pe.1 node = some pe.2 ∧ pe.2.tag = t ∧
      pe.2 ∈ descendants node := by
    intro pe hpe
    have hdwp : pe ∈ descendantsWithPaths node := (List.mem_filter.mp hpe).1
    have htag : pe.2.tag = t := by
      have := (List.mem_filter.mp hpe).2
      simpa using this
    exact ⟨subtreeAt_dwp node pe.1 pe.2 (by cases pe; exact hdwp), htag,
      List.mem_map.mpr ⟨pe, hdwp, rfl⟩⟩
  rw [condCleanPhase]
  rw [condCleanSteps_noop cfg cands node _ trace ?side]
  case side =>
    intro p hp
    have hp2 : p ∈ findPathsTag t node := List.mem_reverse.mp hp
    obtain ⟨pe, hpe, hpeq⟩ := List.mem_map.mp hp2
    obtain ⟨hsub, htag, hdesc⟩ := hmem pe hpe
    obtain ⟨hc1, hc2⟩ := h pe.2 hdesc htag
    exact ⟨pe.2, hpeq ▸ hsub, hc1, hc2⟩
  congr 1
  have hfm : (findPathsTag t node).reverse.filterMap
      (fun p => (subtreeAt p node).map Elem.id) =
      (findPathsTag t node).reverse.map
        (fun p => ((subtreeAt p node).map Elem.id).getD 0) := by
    apply filterMap_eq_map_of
    intro p hp
    have hp2 : p ∈ findPathsTag t node := List.mem_reverse.mp hp
    obtain ⟨pe, hpe, hpeq⟩ := List.mem_map.mp hp2
    obtain ⟨hsub, _, _⟩ := hmem pe hpe
    rw [← hpeq, hsub]
    rfl
  rw [hfm, List.map_reverse]
  congr 1
  rw [findPathsTag, List.map_map, findAllTag, List.map_map]
  congr 1
  apply List.map_congr_left
  intro pe hpe
  obtain ⟨hsub, _, _⟩ := hmem pe hpe
  simp [hsub]

/-- Claim C5 as amended: when every `table`/`ul`/`div` element of the
fragment has nonnegative `weight + score` and at least ten commas of text
content (so no subtree is dropped and no element is marked allowed), the
conditional cleaning pass visits all `table` elements in reverse document
order, then all `ul` elements in reverse document order, then all `div`
elements in reverse document order — per-tag groups, not global reverse
document order — skipping elements of the allowed set. -/
theorem c5_order_amended (cfg : ExtractorConfig) (cands : List Candidate) (node : Elem)
    (h : ∀ e ∈ descendants node, (["table", "ul", "div"].contains e.tag) = true →
        ¬ (class_weight cfg e + scoreOr0 cands e.id < 0) ∧
        ¬ ((textContentL e).count ',' < 10)) :
    (conditionalClean cfg cands node).trace =
      ((findAllTag "table" node).map Elem.id).reverse ++
      ((findAllTag "ul" node).map Elem.id).reverse ++
      ((findAllTag "div" node).map Elem.id).reverse ∧
    (conditionalClean cfg cands node).tree = node := by
  have h1 := condCleanPhase_noop cfg cands "table" node []
    (fun e he ht => h e he (by rw [ht]; decide))
  have h2 := condCleanPhase_noop cfg cands "ul" node
    (((findAllTag "table" node).map Elem.id).reverse)
    (fun e he ht => h e he (by rw [ht]; decide))
  have h3 := condCleanPhase_noop cfg cands "div" node
    (((findAllTag "table" node).map Elem.id).reverse ++
      ((findAllTag "ul" node).map Elem.id).reverse)
    (fun e he ht => h e he (by rw [ht]; decide))
  have hfold : conditionalClean cfg cands node =
      condCleanPhase cfg cands "div"
        (condCleanPhase cfg cands "ul"
          (condCleanPhase cfg cands "table" ⟨node, [], []⟩)) := rfl
  rw [hfold, h1]
  simp only [List.nil_append] at h2 ⊢
  rw [h2, h3]
  simp [List.append_assoc]

/-- Claim C5 counterexample: in `rootC5` the document order of the
conditionally cleaned elements is `table#1` then `div#2`, so reverse
document order is `[2, 1]`; the pass, however, walks per-tag groups and
visits `[1, 2]`. -/
theorem c5_counterexample :
    (conditionalClean defaultConfig [] rootC5).trace = [1, 2] ∧
    specReverseOrder rootC5 = [2, 1] ∧
    ([1, 2] : List Nat) ≠ [2, 1] := by
  refine ⟨?_, by decide, by decide⟩
  have h1 := condCleanPhase_noop defaultConfig [] "table" rootC5 []
    (fun e he ht => ?ha)
  case ha =>
    have hd : descendants rootC5 = [tableC5, divC5] := rfl
    rw [hd] at he
    rcases List.mem_cons.mp he with rfl | he2
    . constructor
      . have hw : class_weight defaultConfig tableC5 = 0 := class_weight_noattrs 1 "table" c10txt [] ""
        rw [hw]
        norm_num [scoreOr0, findCandidate]
      . decide
    . rcases List.mem_cons.mp he2 with rfl | he3
      . constructor
        . have hw : class_weight defaultConfig divC5 = 0 := class_weight_noattrs 2 "div" c10txt [] ""
          rw [hw]
          norm_num [scoreOr0, findCandidate]
        . decide
      . simp at he3
  have h2 := condCleanPhase_noop defaultConfig [] "ul" rootC5
    (((findAllTag "table" rootC5).map Elem.id).reverse)
    (fun e he ht => ?hb)
  case hb =>
    have hd : descendants rootC5 = [tableC5, divC5] := rfl
    rw [hd] at he
    rcases List.mem_cons.mp he with rfl | he2
    . constructor
      . have hw : class_weight defaultConfig tableC5 = 0 := class_weight_noattrs 1 "table" c10txt [] ""
        rw [hw]
        norm_num [scoreOr0, findCandidate]
      . decide
    . rcases List.mem_cons.mp he2 with rfl | he3
      . constructor
        . have hw : class_weight defaultConfig divC5 = 0 := class_weight_noattrs 2 "div" c10txt [] ""
          rw [hw]
          norm_num [scoreOr0, findCandidate]
        . decide
      . simp at he3
  have h3 := condCleanPhase_noop defaultConfig [] "div" rootC5
    (((findAllTag "table" rootC5).map Elem.id).reverse ++
      ((findAllTag "ul" rootC5).map Elem.id).reverse)
    (fun e he ht => ?hc)
  case hc =>
    have hd : descendants rootC5 = [tableC5, divC5] := rfl
    rw [hd] at he
    rcases List.mem_cons.mp he with rfl | he2
    . constructor
      . have hw : class_weight defaultConfig tableC5 = 0 := class_weight_noattrs 1 "table" c10txt [] ""
        rw [hw]
        norm_num [scoreOr0, findCandidate]
      . decide
    . rcases List.mem_cons.mp he2 with rfl | he3
      . constructor
        . have hw : class_weight defaultConfig divC5 = 0 := class_weight_noattrs 2 "div" c10txt [] ""
          rw [hw]
          norm_num [scoreOr0, findCandidate]
        . decide
      . simp at he3
  have hfold : conditionalClean defaultConfig [] rootC5 =
      condCleanPhase defaultConfig [] "div"
        (condCleanPhase defaultConfig [] "ul"
          (condCleanPhase defaultConfig [] "table" ⟨rootC5, [], []⟩)) := rfl
  rw [hfold, h1]
  simp only [List.nil_append] at h2 ⊢
  rw [h2, h3]
  decide

/-- Witness for the amended claim C5 on the concrete fragment. -/
theorem c5_order_amended_witness :
    (conditionalClean defaultConfig [] rootC5).trace =
      ((findAllTag "table" rootC5).map Elem.id).reverse ++
      ((findAllTag "ul" rootC5).map Elem.id).reverse ++
      ((findAllTag "div" rootC5).map Elem.id).reverse := by
  have h := c5_order_amended defaultConfig [] rootC5 (fun e he ht => ?hside)
  case hside =>
    have hd : descendants rootC5 = [tableC5, divC5] := rfl
    rw [hd] at he
    rcases List.mem_cons.mp he with rfl | he2
    . constructor
      . have hw : class_weight defaultConfig tableC5 = 0 := class_weight_noattrs 1 "table" c10txt [] ""
        rw [hw]
        norm_num [scoreOr0, findCandidate]
      . decide
    . rcases List.mem_cons.mp he2 with rfl | he3
      . constructor
        . have hw : class_weight defaultConfig divC5 = 0 := class_weight_noattrs 2 "div" c10txt [] ""
          rw [hw]
          norm_num [scoreOr0, findCandidate]
        . decide
      . simp at he3
  exact h.1

/-! ## Claim C4 -/

theorem clean_attributes_no_match (s : String) (h : htmlStripSearch s.data = false) :
    clean_attributes s = s := by
  rw [clean_attributes]
  have hgo : cleanAttributesGo s.data.length s.data = s.data := by
    cases hd : s.data with
    | nil => rfl
    | cons c cs =>
      rw [hd] at h
      simp [cleanAttributesGo, h]
  rw [hgo]

/-- A conditional-cleaning step that runs `remove_unnecessary_element` but
keeps the element and allows nothing: only the trace grows. -/
theorem condCleanStep_checked_kept (cfg : ExtractorConfig) (cands : List Candidate)
    (st : CondState) (path : List Nat) (el par : Elem) (idx : Nat)
    (hsub : subtreeAt path st.tree = some el)
    (hallowed : st.allowed.contains el.id = false)
    (hscore : ¬ (class_weight cfg el + scoreOr0 cands el.id < 0))
    (hcommas : (textContentL el).count ',' < 10)
    (hpar : subtreeAt path.dropLast st.tree = some par)
    (hidx : (path.getLast?).getD 0 = idx)
    (hrm : remove_unnecessary_element el (class_weight cfg el)
      (par.children.drop (idx + 1)) ((par.children.take idx).reverse) = (false, [])) :
    condCleanStep cfg cands st path = ⟨st.tree, st.allowed, st.trace ++ [el.id]⟩ := by
  rw [condCleanStep, hsub]
  simp only [hallowed, Bool.false_eq_true, if_false, ite_false]
  rw [if_neg hscore, if_pos hcommas]
  simp only [hpar, hidx]
  rw [hrm]
  simp

theorem class_weight_divInner : class_weight defaultConfig divInner = 0 :=
  class_weight_noattrs 1 "div" "" [Elem.mk 2 "p" [] t240 [] ""] ""

theorem remove_unnecessary_divInner :
    remove_unnecessary_element divInner (class_weight defaultConfig divInner) [] []
      = (false, []) := by
  rw [remove_unnecessary_element, class_weight_divInner]
  rw [show findAllTag "p" divInner = [Elem.mk 2 "p" [] t240 [] ""] from rfl,
    show findAllTag "img" divInner = [] from rfl,
    show findAllTag "li" divInner = [] from rfl,
    show findAllTag "embed" divInner = [] from rfl,
    show findAllTag "input" divInner = [] from rfl]
  rw [show text_length divInner = 240 from by decide]
  rw [show get_link_density divInner = 0 from by
    rw [get_link_density, show findAllTag "a" divInner = [] from rfl]
    norm_num]
  norm_num [counts_conditions, density_conditions, check_if_allowed,
    get_siblings_content_lengths, TEXT_LENGTH_THRESHOLD, tags]

theorem condClean_artF : conditionalClean defaultConfig [] artF = ⟨artF, [], [1]⟩ := by
  have hfold : conditionalClean defaultConfig [] artF =
      condCleanPhase defaultConfig [] "div"
        (condCleanPhase defaultConfig [] "ul"
          (condCleanPhase defaultConfig [] "table" ⟨artF, [], []⟩)) := rfl
  have hT : condCleanPhase defaultConfig [] "table" ⟨artF, [], []⟩ = ⟨artF, [], []⟩ := by
    rw [condCleanPhase, show findPathsTag "table" artF = [] from rfl]
    rfl
  have hU : condCleanPhase defaultConfig [] "ul" ⟨artF, [], []⟩ = ⟨artF, [], []⟩ := by
    rw [condCleanPhase, show findPathsTag "ul" artF = [] from rfl]
    rfl
  have hD : condCleanPhase defaultConfig [] "div" ⟨artF, [], []⟩ = ⟨artF, [], [1]⟩ := by
    rw [condCleanPhase, show findPathsTag "div" artF = [[0]] from rfl]
    simp only [List.reverse_cons, List.reverse_nil, List.nil_append, List.foldl_cons,
      List.foldl_nil]
    have hstep := condCleanStep_checked_kept defaultConfig [] ⟨artF, [], []⟩ [0] divInner artF 0
      rfl rfl ?hsc (by decide) rfl rfl ?hrm
    case hsc =>
      rw [class_weight_divInner]
      norm_num [scoreOr0, findCandidate]
    case hrm =>
      have : artF.children.drop (0 + 1) = ([] : List Elem) := rfl
      rw [this, show (artF.children.take 0).reverse = ([] : List Elem) from rfl]
      exact remove_unnecessary_divInner
    simpa using hstep
  rw [hfold, hT, hU, hD]

theorem sanitize_artF_eval : sanitize defaultConfig [] artF = serialize artF := by
  rw [sanitize]
  rw [show dropHeaders defaultConfig artF = artF from rfl]
  rw [show dropForms artF = artF from rfl]
  rw [condClean_artF]
  exact clean_attributes_no_match (serialize artF) (by decide)

/-- Claim C4 counterexample: the article `artF` sanitizes to its own
serialization, a 269-character markup string, while its cleaned text is 240
characters.  The code's retry condition `len(cleaned_article) < 250` is
false (no restart), but the claim's condition — cleaned text length below
250 — is true (restart). -/
theorem c4_counterexample :
    sanitize defaultConfig [] artF = serialize artF ∧
    (serialize artF).length = 269 ∧
    length_retry_cond true (sanitize defaultConfig [] artF) = false ∧
    specLengthRetryCond true artF = true := by
  refine ⟨sanitize_artF_eval, by decide, ?_, by decide⟩
  rw [sanitize_artF_eval]
  decide

/-- Claim C4 as amended: after sanitizing, the orchestrator restarts with
`ruthless = false` exactly when `ruthless` is still true and the LENGTH OF
THE SANITIZED MARKUP STRING (tags included, `len(cleaned_article)`) is
below 250; otherwise it returns the sanitized fragment regardless of its
length. -/
theorem c4_retry_amended (d : PassData) (r : Bool) (hbest : d.bestExists = true) :
    (iterOutcome d r = .retryStep false ↔ (r = true ∧ d.cleaned.length < RETRY_LENGTH)) ∧
    (¬ (r = true ∧ d.cleaned.length < RETRY_LENGTH) → iterOutcome d r = .doneStep d.cleaned) := by
  rw [iterOutcome, hbest]
  cases r with
  | true =>
    by_cases hlen : d.cleaned.length < RETRY_LENGTH <;>
      simp [length_retry_cond, hlen]
  | false => simp [length_retry_cond]

/-- Witness for the amended claim C4. -/
theorem c4_retry_amended_witness :
    iterOutcome ⟨true, ""⟩ true = .retryStep false :=
  (c4_retry_amended ⟨true, ""⟩ true rfl).1.mpr ⟨rfl, by decide⟩

/-! ## Claim C8 -/

/-- Claim C8: when the tree work of a reached iteration raises internally,
`get_clean_html` raises exactly one error kind — `Unparseable`, carrying the
original failure's message — and returns no result. -/
theorem c8_unparseable_confirmed (ps : Nat → Except String PassData) (m : String)
    (herr : runLoopE ps 2 true 0 = .error m) :
    get_clean_html (some ps) = .error ⟨m⟩ ∧
    ∀ r : Option String, get_clean_html (some ps) ≠ .ok r := by
  have h : get_clean_html (some ps) = .error ⟨m⟩ := by
    simp only [get_clean_html, herr]
  refine ⟨h, fun r hr => ?_⟩
  rw [h] at hr
  exact absurd hr (by simp)

/-- Witness for claim C8: an oracle whose first pass raises. -/
theorem c8_unparseable_confirmed_witness :
    get_clean_html (some (fun _ => Except.error "boom")) = .error ⟨"boom"⟩ :=
  (c8_unparseable_confirmed (fun _ => Except.error "boom") "boom" rfl).1

/-! ## Claim C9 -/

theorem iterOutcome_retry_shape (d : PassData) (r rr : Bool)
    (h : iterOutcome d r = .retryStep rr) : r = true ∧ rr = false := by
  cases r with
  | false =>
    rw [iterOutcome] at h
    simp only [Bool.and_false, Bool.false_eq_true, if_false, ite_false,
      length_retry_cond, Bool.false_and] at h
    exact absurd h (by simp)
  | true =>
    refine ⟨rfl, ?_⟩
    rw [iterOutcome] at h
    split at h
    . injection h with h2
      exact h2.symm
    . split at h
      . injection h with h2
        exact h2.symm
      . exact absurd h (by simp)

theorem iterOutcome_lenient_done (d : PassData) :
    iterOutcome d false = .doneStep d.cleaned := by
  rw [iterOutcome]
  simp [length_retry_cond]

/-- Claim C9: the retry loop returns within two iterations for every
oracle; extra fuel never changes the result (so the unbounded `while True`
is the fuel-2 model); `ruthless` transitions only from true to false; and a
pass with `ruthless = false` always returns. -/
theorem c9_termination_confirmed (ps : Nat → PassData) :
    (runLoop ps 2 true 0).isSome = true ∧
    (∀ fuel, 2 ≤ fuel → runLoop ps fuel true 0 = runLoop ps 2 true 0) ∧
    (∀ (d : PassData) (r rr : Bool), iterOutcome d r = .retryStep rr → r = true ∧ rr = false) ∧
    (∀ d : PassData, iterOutcome d false = .doneStep d.cleaned) := by
  refine ⟨?_, ?_, iterOutcome_retry_shape, iterOutcome_lenient_done⟩
  . cases h0 : iterOutcome (ps 0) true with
    | doneStep s => simp [runLoop, h0]
    | retryStep r =>
      obtain ⟨-, hr⟩ := iterOutcome_retry_shape (ps 0) true r h0
      subst hr
      simp [runLoop, h0, iterOutcome_lenient_done]
  . intro fuel hf
    obtain ⟨k, rfl⟩ : ∃ k, fuel = k + 2 := ⟨fuel - 2, by omega⟩
    cases h0 : iterOutcome (ps 0) true with
    | doneStep s => simp [runLoop, h0]
    | retryStep r =>
      obtain ⟨-, hr⟩ := iterOutcome_retry_shape (ps 0) true r h0
      subst hr
      simp [runLoop, h0, iterOutcome_lenient_done]

/-- Witness for claim C9 at a concrete oracle. -/
theorem c9_termination_confirmed_witness :
    (runLoop (fun _ => ⟨false, "zz"⟩) 2 true 0).isSome = true :=
  (c9_termination_confirmed (fun _ => ⟨false, "zz"⟩)).1

/-! ## Claim C10 -/

theorem withChildren_tag (e : Elem) (cs : List Elem) : (e.withChildren cs).tag = e.tag := by
  cases e
  rfl

/-- With a forced-partial flag the assembled article is rooted at the bare
`div` fragment created by `initial_output`, in every branch of
`get_article`. -/
theorem get_article_partial_tag (doc : Elem) (cands : List Candidate) (best : Candidate)
    (n : Nat) : ((get_article doc cands best true n).1).tag = "div" := by
  rw [get_article]
  cases hpath : pathOfId doc best.elem.id with
  | none => rfl
  | some p =>
    by_cases hp : p.isEmpty
    . simp only [hp, if_true, ite_true]
      rfl
    . simp only [hp, Bool.false_eq_true, if_false, ite_false]
      cases hsub : subtreeAt p.dropLast doc with
      | none => rfl
      | some parent =>
        simp only [if_true, ite_true]
        rw [withChildren_tag]
        rfl

/-- Claim C10 as amended: part 1 of the claim holds — whenever the tree
contains an `itemprop='articleBody'` element, an `article`, or a `body`,
`narrow_scope` forces `htmlPartial` to true — and consequently, whenever a
pass finds a best candidate, the assembled article is rooted at a bare
`div` regardless of the caller's `htmlPartial` argument.  (When no
candidate is found in the lenient pass, the fallback output is rooted at
the `body` element or the working root instead — see the counterexample.) -/
theorem c10_narrow_amended (cfg : ExtractorConfig) (doc : Elem) (hp r : Bool)
    (htarget : (allElemsWithPaths doc).any (fun pe => isNarrowTarget pe.2) = true) :
    (narrow_scope doc hp).2 = true ∧
    (∀ best, select_best_candidate
        (find_candidates cfg doc (narrow_scope doc hp).1 r).2 = some best →
      ∀ art, (onePass cfg doc hp r).article = some art → art.tag = "div") := by
  have hmain : (narrow_scope doc hp).2 = true := by
    rw [narrow_scope]
    simp only [List.foldl]
    cases hab : xpathPairs (fun e => e.get "itemprop" == some "articleBody") doc with
    | cons d rest =>
      cases har : xpathPairs (fun e => e.tag = "article") doc with
      | cons d2 rest2 =>
        cases hbd : xpathPairs (fun e => e.tag = "body") doc <;> simp
      | nil =>
        cases hbd : xpathPairs (fun e => e.tag = "body") doc <;> simp
    | nil =>
      cases har : xpathPairs (fun e => e.tag = "article") doc with
      | cons d2 rest2 =>
        cases hbd : xpathPairs (fun e => e.tag = "body") doc <;> simp
      | nil =>
        cases hbd : xpathPairs (fun e => e.tag = "body") doc with
        | cons d3 rest3 => simp
        | nil =>
          exfalso
          obtain ⟨pe, hpe, htg⟩ := List.any_eq_true.mp htarget
          rw [isNarrowTarget] at htg
          rcases Bool.or_eq_true_iff.mp htg with h1 | h2
          . rcases Bool.or_eq_true_iff.mp h1 with h1a | h1b
            . have : pe ∈ xpathPairs (fun e => e.get "itemprop" == some "articleBody") doc :=
                List.mem_filter.mpr ⟨hpe, h1a⟩
              rw [hab] at this
              simp at this
            . have : pe ∈ xpathPairs (fun e => e.tag = "article") doc :=
                List.mem_filter.mpr ⟨hpe, h1b⟩
              rw [har] at this
              simp at this
          . have : pe ∈ xpathPairs (fun e => e.tag = "body") doc :=
              List.mem_filter.mpr ⟨hpe, h2⟩
            rw [hbd] at this
            simp at this
  refine ⟨hmain, ?_⟩
  intro best hbest art hart
  simp only [onePass] at hart
  rw [hbest] at hart
  simp only at hart
  injection hart with hart2
  rw [← hart2, hmain]
  exact get_article_partial_tag _ _ best _

/-- Witness for the amended claim C10 on a full document with one long
paragraph (its inner `div` is selected as best candidate). -/
theorem c10_narrow_amended_witness : (narrow_scope docW false).2 = true :=
  (c10_narrow_amended defaultConfig docW false true (by decide)).1

/-- Claim C10 counterexample: `docBody` contains a `body` (so a narrow
target), yet `extract` falls back — no candidate ever qualifies — and the
returned markup is rooted at `body`, not at a bare `div`, contradicting
"the returned markup is a bare div-rooted fragment regardless of the
htmlPartial argument". -/
theorem c10_counterexample :
    (allElemsWithPaths docBody).any (fun pe => isNarrowTarget pe.2) = true ∧
    (extract defaultConfig docBody false).1 = some "<body><p>hi</p></body>" ∧
    ((extract defaultConfig docBody false).2.map Elem.tag) = some "body" ∧
    (some "body" : Option String) ≠ some "div" := by
  exact ⟨by decide, by decide, by decide, by decide⟩

end Wanish
